import Mathlib

/-!
# Document processor: registry and breadth-first expansion engine

A shallow embedding of `pkg/ingestor/processor/process.go`.

Modelling conventions.

* Processors are external collaborators; they are modelled as deterministic
  functions of the document they are given that neither mutate documents nor the
  registry.  Nil pointers (a nil root, a nil child, a nil processor), on which
  the Go code panics, are outside the model.
* The loop is embedded twice.  In `ProcessStep`, `ProcessLoop` and `Process` a
  `*Document` is the value it points to, and the write
  `dd.SourceInformation = i.SourceInformation` makes the emitted copy `emit i dd`;
  this is the loop as seen by one worklist entry, and it is the whole run when
  the documents returned by `Unpack` are distinct objects from the ones already
  in the worklist.  In `ProcessStepAt`, `ProcessLoopAt` and `ProcessAt` a
  `*Document` is an address into a memory of document objects and the write
  changes the object in place, so that a pointer queued twice is read as
  rewritten the second time.  The statements about whole runs (level order,
  termination, what the engine writes) are made about the second embedding.
* A Go `(value, error)` result is an `Except`; a bare `error` result is an
  `Except Error Unit`.
* The package-level variable `documentProcessors` is passed explicitly.
* `json.Valid` from the Go standard library is a parameter `jsonValid`.
* The `for len(docsToUnpack) > 0` loop has no bound in the source.  It is
  modelled both by a total one-iteration function (`ProcessStep`,
  `ProcessStepAt`) and by a fuel-bounded loop (`ProcessLoop`, `ProcessLoopAt`);
  running out of fuel is `none` and means that the loop has not finished within
  that many iterations.
* `logrus.Debugf` output of `Process` is not modelled; the warning emitted by
  `RegisterDocumentProcessor` is.
* The level-order definitions (`generationAt`, `levelOrderAt`, `nodesAt`) are
  reference definitions against which the loop is compared; they are not part of
  the source.
-/

namespace Processor

/-! ## Data model -/

/-- Modelled from the spec: the declaration of `DocumentType` is not part of the
source file; the spec describes it as an open-ended string-like tag. -/
abbrev DocumentType := String

/-- Modelled from the spec: the declaration of `FormatType` is not part of the
source file; the spec describes it as a tag naming the wire encoding. -/
abbrev FormatType := String

/-- Modelled from the spec: the constant `FormatJSON` is declared outside the
source file; it is the format tag of JSON documents. -/
def FormatJSON : FormatType := "JSON"

/-- Modelled from the spec: the declaration of `SourceInformation` is not part
of the source file; the spec describes it as metadata about where the root
document came from (ingestion source, transport identity). -/
structure SourceInformation where
  Collector : String
  Source : String
deriving DecidableEq, Repr

/-- Modelled from the spec: the declaration of `Document` is not part of the
source file; the fields are the ones `process.go` reads and writes. -/
structure Document where
  Blob : List UInt8
  /-- The field `Type` of the source (`Type` is reserved in Lean). -/
  Type_ : DocumentType
  Format : FormatType
  SourceInformation : SourceInformation
deriving DecidableEq, Repr

/-- Go `error` values that occur in `process.go`.  `external` is an error value
produced by a processor; the other constructors are the `fmt.Errorf` calls of the
source, the wrapping ones (`%w`) keeping their cause. -/
inductive Error where
  /-- an error returned by a processor operation -/
  | external (msg : String)
  /-- "invalid JSON document" -/
  | invalidJSON
  /-- "invalid document format type: %v" -/
  | invalidFormat (f : FormatType)
  /-- "no document processor registered for type: %s" -/
  | noProcessor (t : DocumentType)
  /-- "error validating document schema: %w" -/
  | schema (cause : Error)
  /-- "error validating trust information: %w" -/
  | trust (cause : Error)
  /-- "unable to unpack document: %w" -/
  | unpack (cause : Error)
deriving DecidableEq, Repr

/-- The `map[string]interface{}` returned by `ValidateTrustInformation`. -/
abbrev TrustInfo := List (String × String)

/-- Modelled from the spec: the interface `DocumentProcessor` is declared
outside the source file; it has the three operations `process.go` calls. -/
structure DocumentProcessor where
  ValidateSchema : Document → Except Error Unit
  ValidateTrustInformation : Document → Except Error TrustInfo
  Unpack : Document → Except Error (List Document)

/-- The value of `documentProcessors`, a `map[DocumentType]DocumentProcessor`:
`none` is an absent key. -/
abbrev Registry := DocumentType → Option DocumentProcessor

/-- The initial value of `documentProcessors`: the empty map. -/
def emptyRegistry : Registry := fun _ => none

/-! ## Registry -/

/-- `RegisterDocumentProcessor(p, d)`: returns the warnings logged and the new
value of `documentProcessors`. -/
def RegisterDocumentProcessor (p : DocumentProcessor) (d : DocumentType)
    (documentProcessors : Registry) : List String × Registry :=
  let warnings :=
    if (documentProcessors d).isSome then
      ["the document processor is being overwritten: " ++ d]
    else []
  (warnings, fun t => if t = d then some p else documentProcessors t)

/-! ## Per-document pipeline -/

/-- `(*Document).validateFormat`. -/
def validateFormat (jsonValid : List UInt8 → Bool) (i : Document) : Except Error Unit :=
  if i.Format = FormatJSON then
    if !jsonValid i.Blob then
      .error .invalidJSON
    else
      .ok ()
  else
    .error (.invalidFormat i.Format)

/-- `(*Document).validateDocument`. -/
def validateDocument (documentProcessors : Registry) (i : Document) :
    Except Error TrustInfo :=
  match documentProcessors i.Type_ with
  | none => .error (.noProcessor i.Type_)
  | some p =>
    match p.ValidateSchema i with
    | .error err => .error (.schema err)
    | .ok _ =>
      match p.ValidateTrustInformation i with
      | .error err => .error (.trust err)
      | .ok trustInfo => .ok trustInfo

/-- `(*Document).unpackDocument`. -/
def unpackDocument (documentProcessors : Registry) (i : Document) :
    Except Error (List Document) :=
  match documentProcessors i.Type_ with
  | none => .error (.noProcessor i.Type_)
  | some p => p.Unpack i

/-- `processDocument`. -/
def processDocument (jsonValid : List UInt8 → Bool) (documentProcessors : Registry)
    (i : Document) : Except Error (List Document) :=
  match validateFormat jsonValid i with
  | .error err => .error err
  | .ok _ =>
    match validateDocument documentProcessors i with
    | .error err => .error err
    | .ok _trustInfo =>
      match unpackDocument documentProcessors i with
      | .error err => .error (.unpack err)
      | .ok ds => .ok ds

/-- `(*Document).validate`. -/
def validate (jsonValid : List UInt8 → Bool) (documentProcessors : Registry)
    (i : Document) : Except Error Bool :=
  match validateFormat jsonValid i with
  | .error err => .error err
  | .ok _ =>
    match validateDocument documentProcessors i with
    | .error err => .error err
    | .ok _trustInfo => .ok true

/-! ## Expansion engine -/

/-- The local variables of `Process` that live across loop iterations. -/
structure State where
  docsToUnpack : List Document
  finalDocs : List Document
deriving DecidableEq, Repr

/-- The state of `Process` on entry to the loop. -/
def initState (i : Document) : State :=
  { docsToUnpack := [i], finalDocs := [] }

/-- The document appended to `finalDocs` for a leaf `dd`: `dd` after
`dd.SourceInformation = i.SourceInformation`. -/
def emit (i dd : Document) : Document :=
  { dd with SourceInformation := i.SourceInformation }

/-- One iteration of the loop body of `Process` (the state is returned
unchanged when the loop condition is false). -/
def ProcessStep (jsonValid : List UInt8 → Bool) (documentProcessors : Registry)
    (i : Document) (s : State) : State :=
  match s.docsToUnpack with
  | [] => s
  | dd :: docsToUnpack =>
    match processDocument jsonValid documentProcessors dd with
    | .error _ => { docsToUnpack := docsToUnpack, finalDocs := s.finalDocs }
    | .ok ds =>
      if ds.length > 0 then
        { docsToUnpack := docsToUnpack ++ ds, finalDocs := s.finalDocs }
      else
        { docsToUnpack := docsToUnpack, finalDocs := s.finalDocs ++ [emit i dd] }

/-- The `for len(docsToUnpack) > 0` loop of `Process`, run for at most `fuel`
iterations: `some s` is the state on loop exit, `none` means the loop is still
running after `fuel` iterations. -/
def ProcessLoop (jsonValid : List UInt8 → Bool) (documentProcessors : Registry)
    (i : Document) : Nat → State → Option State
  | fuel, s =>
    if s.docsToUnpack.length > 0 then
      match fuel with
      | 0 => none
      | fuel + 1 =>
        ProcessLoop jsonValid documentProcessors i fuel
          (ProcessStep jsonValid documentProcessors i s)
    else
      some s

/-- `Process`, with the loop bounded by `fuel`: `some (finalDocs, err)` is the
pair returned by the Go function (`err = none` is a nil error). -/
def Process (jsonValid : List UInt8 → Bool) (documentProcessors : Registry)
    (i : Document) (fuel : Nat) : Option (List Document × Option Error) :=
  match ProcessLoop jsonValid documentProcessors i fuel (initState i) with
  | none => none
  | some s => some (s.finalDocs, none)

/-! ## Observations on a run -/

/-- The documents taken from the front of the worklist (`dd := docsToUnpack[0]`)
during the first `n` iterations of the loop started in state `s`, in order. -/
def dequeued (jsonValid : List UInt8 → Bool) (documentProcessors : Registry)
    (i : Document) : Nat → State → List Document
  | 0, _ => []
  | n + 1, s =>
    match s.docsToUnpack with
    | [] => []
    | dd :: _ =>
      dd :: dequeued jsonValid documentProcessors i n
        (ProcessStep jsonValid documentProcessors i s)

/-- The test `err == nil && len(ds) == 0` of the loop body: `processDocument`
succeeds on `dd` with no children. -/
def isLeaf (jsonValid : List UInt8 → Bool) (documentProcessors : Registry)
    (dd : Document) : Bool :=
  match processDocument jsonValid documentProcessors dd with
  | .ok [] => true
  | _ => false

/-- All five stages of `processDocument` succeed on `dd`, and `Unpack` returns
`ds`. -/
def PassesAll (jsonValid : List UInt8 → Bool) (documentProcessors : Registry)
    (dd : Document) (ds : List Document) : Prop :=
  validateFormat jsonValid dd = .ok () ∧
  ∃ p, documentProcessors dd.Type_ = some p ∧
    p.ValidateSchema dd = .ok () ∧
    (∃ trustInfo, p.ValidateTrustInformation dd = .ok trustInfo) ∧
    p.Unpack dd = .ok ds

/-- One iteration of the loop on a worklist whose entries are tagged with their
depth below the root: the children of an entry of depth `k` have depth `k + 1`.
Forgetting the tags gives the worklist of `ProcessStep`. -/
def stepTagged (jsonValid : List UInt8 → Bool) (documentProcessors : Registry) :
    List (Document × Nat) → List (Document × Nat)
  | [] => []
  | (dd, k) :: docsToUnpack =>
    match processDocument jsonValid documentProcessors dd with
    | .error _ => docsToUnpack
    | .ok ds =>
      if ds.length > 0 then
        docsToUnpack ++ ds.map (fun c => (c, k + 1))
      else
        docsToUnpack

/-- The depth-tagged entries dequeued during the first `n` iterations of the loop
started with the tagged worklist `q`, in order. -/
def dequeuedTagged (jsonValid : List UInt8 → Bool) (documentProcessors : Registry) :
    Nat → List (Document × Nat) → List (Document × Nat)
  | 0, _ => []
  | n + 1, q =>
    match q with
    | [] => []
    | e :: _ =>
      e :: dequeuedTagged jsonValid documentProcessors n
        (stepTagged jsonValid documentProcessors q)

/-- A list of depths as found in a breadth-first queue: non-decreasing, and any
two of them differ by at most one. -/
def Graded (l : List Nat) : Prop :=
  l.Pairwise (· ≤ ·) ∧ ∀ a ∈ l, ∀ b ∈ l, a ≤ b + 1

/-! ## Example registry and documents -/

/-- A stand-in for `json.Valid` in the examples: it accepts exactly the blob
`{}`.  The example documents carry either `{}` (valid JSON) or `{` (not valid
JSON), on which it agrees with `json.Valid`. -/
def demoJsonValid (b : List UInt8) : Bool := b = [123, 125]

/-- A well-formed JSON document of type `t` whose provenance names `src`. -/
def mkDoc (t : DocumentType) (src : String) : Document :=
  { Blob := [123, 125], Type_ := t, Format := FormatJSON,
    SourceInformation := { Collector := "demo", Source := src } }

/-- A processor that accepts every document and unpacks it with `children`. -/
def acceptAll (children : Document → List Document) : DocumentProcessor :=
  { ValidateSchema := fun _ => .ok (),
    ValidateTrustInformation := fun _ => .ok [],
    Unpack := fun d => .ok (children d) }

/-- A processor whose `ValidateSchema` rejects every document. -/
def rejectSchema : DocumentProcessor :=
  { ValidateSchema := fun _ => .error (.external "schema mismatch"),
    ValidateTrustInformation := fun _ => .ok [],
    Unpack := fun _ => .ok [] }

/-- A registry with an "envelope" type that unpacks to one "leaf" child, a
terminal "leaf" type, a "broken" type whose schema validation fails, a "pair"
type that unpacks to a "broken" and a "leaf" child and a "riap" type that
unpacks to the same two in the other order, a "tree" type that unpacks to a
"branch" A and a "leaf" B, and a "branch" type that unpacks to two "leaf"
children A1 and A2. -/
def demoRegistry : Registry := fun t =>
  if t = "envelope" then some (acceptAll fun _ => [mkDoc "leaf" "child"])
  else if t = "leaf" then some (acceptAll fun _ => [])
  else if t = "broken" then some rejectSchema
  else if t = "pair" then
    some (acceptAll fun _ => [mkDoc "broken" "first", mkDoc "leaf" "second"])
  else if t = "riap" then
    some (acceptAll fun _ => [mkDoc "leaf" "first", mkDoc "broken" "second"])
  else if t = "tree" then
    some (acceptAll fun _ => [mkDoc "branch" "A", mkDoc "leaf" "B"])
  else if t = "branch" then
    some (acceptAll fun _ => [mkDoc "leaf" "A1", mkDoc "leaf" "A2"])
  else none

/-! ## One iteration, uniformly -/

/-- The children that the loop enqueues for a dequeued document `d`: the list
returned by a successful `processDocument`, nothing when it fails. -/
def childrenOf (jsonValid : List UInt8 → Bool) (documentProcessors : Registry)
    (d : Document) : List Document :=
  match processDocument jsonValid documentProcessors d with
  | .ok ds => ds
  | .error _ => []

/-- What one iteration appends to `finalDocs` for the dequeued document `dd`. -/
def leafOut (jsonValid : List UInt8 → Bool) (documentProcessors : Registry)
    (i dd : Document) : List Document :=
  if isLeaf jsonValid documentProcessors dd then [emit i dd] else []

/-! ## Package state -/

/-- The package-level state of `processor`: the variable `documentProcessors`. -/
structure Package where
  documentProcessors : Registry

/-- `Process` as an operation on the package state: its result together with
the package state after the call.  `Process` and the functions it calls only
read `documentProcessors` (the map lookups in `validateDocument` and
`unpackDocument`); none of them assigns to it or writes a key. -/
def ProcessOn (jsonValid : List UInt8 → Bool) (i : Document) (fuel : Nat)
    (g : Package) : Option (List Document × Option Error) × Package :=
  (Process jsonValid g.documentProcessors i fuel, g)

/-- `RegisterDocumentProcessor` as an operation on the package state. -/
def RegisterOn (p : DocumentProcessor) (d : DocumentType) (g : Package) :
    List String × Package :=
  ((RegisterDocumentProcessor p d g.documentProcessors).1,
    { documentProcessors := (RegisterDocumentProcessor p d g.documentProcessors).2 })

/-! ## Further example registries -/

/-- A processor that accepts every document and whose `Unpack` looks at the
provenance: a document whose source is "root" unpacks to one child, any other
document is terminal. -/
def pickyProcessor : DocumentProcessor :=
  { ValidateSchema := fun _ => .ok (),
    ValidateTrustInformation := fun _ => .ok [],
    Unpack := fun d =>
      if d.SourceInformation.Source = "root" then .ok [mkDoc "picky" "child"]
      else .ok [] }

/-- A registry binding "picky" to `pickyProcessor`. -/
def pickyRegistry : Registry := fun t =>
  if t = "picky" then some pickyProcessor else none

/-- A registry binding "self" to a processor that accepts every document and
whose `Unpack` returns the document itself. -/
def selfRegistry : Registry := fun t =>
  if t = "self" then some (acceptAll fun d => [d]) else none

/-- A registry for the tree root -> [A, B], A -> [A1, A2], with B, A1 and A2
terminal; every node has a type of its own. -/
def treeRegistry : Registry := fun t =>
  if t = "root" then some (acceptAll fun _ => [mkDoc "A" "a", mkDoc "B" "b"])
  else if t = "A" then some (acceptAll fun _ => [mkDoc "A1" "a1", mkDoc "A2" "a2"])
  else if t = "B" then some (acceptAll fun _ => [])
  else if t = "A1" then some (acceptAll fun _ => [])
  else if t = "A2" then some (acceptAll fun _ => [])
  else none

/-- The registry `demoRegistry` with processors that return a non-empty
trust-information map instead of the empty one. -/
def signedRegistry : Registry := fun t =>
  match demoRegistry t with
  | none => none
  | some p =>
    some { p with ValidateTrustInformation := fun d =>
      match p.ValidateTrustInformation d with
      | .ok _ => .ok [("signer", "alice")]
      | .error e => .error e }

/-! ## Documents as objects

The loop of `Process` once more, with `*Document` as an address into a memory of
document objects, so that the write `dd.SourceInformation = i.SourceInformation`
is a write to the object and is seen by every later read through any pointer
to it.  The memory holds every document object of a run, the ones a processor
creates included (with the content the processor gives them); the engine
changes nothing about a document but its `SourceInformation`. -/

/-- The address of a document object: a `*Document`. -/
abbrev Ptr := Nat

/-- The memory: the document behind every pointer. -/
abbrev Heap := Ptr → Document

/-- Modelled from the spec: the interface `DocumentProcessor` is declared
outside the source file.  This is the interface as it is called, through
pointers: each operation receives the pointer and the document behind it, and
`Unpack` returns pointers. -/
structure PtrProcessor where
  ValidateSchema : Ptr → Document → Except Error Unit
  ValidateTrustInformation : Ptr → Document → Except Error TrustInfo
  Unpack : Ptr → Document → Except Error (List Ptr)

/-- The value of `documentProcessors`, with processors called through
pointers. -/
abbrev PtrRegistry := DocumentType → Option PtrProcessor

/-- `(*Document).validateDocument`, reading the document behind `i` in the
memory `h`. -/
def validateDocumentAt (documentProcessors : PtrRegistry) (h : Heap) (i : Ptr) :
    Except Error TrustInfo :=
  match documentProcessors (h i).Type_ with
  | none => .error (.noProcessor (h i).Type_)
  | some p =>
    match p.ValidateSchema i (h i) with
    | .error err => .error (.schema err)
    | .ok _ =>
      match p.ValidateTrustInformation i (h i) with
      | .error err => .error (.trust err)
      | .ok trustInfo => .ok trustInfo

/-- `(*Document).unpackDocument`, reading the document behind `i` in the memory
`h`. -/
def unpackDocumentAt (documentProcessors : PtrRegistry) (h : Heap) (i : Ptr) :
    Except Error (List Ptr) :=
  match documentProcessors (h i).Type_ with
  | none => .error (.noProcessor (h i).Type_)
  | some p => p.Unpack i (h i)

/-- `processDocument`, reading the document behind `i` in the memory `h`. -/
def processDocumentAt (jsonValid : List UInt8 → Bool) (documentProcessors : PtrRegistry)
    (h : Heap) (i : Ptr) : Except Error (List Ptr) :=
  match validateFormat jsonValid (h i) with
  | .error err => .error err
  | .ok _ =>
    match validateDocumentAt documentProcessors h i with
    | .error err => .error err
    | .ok _trustInfo =>
      match unpackDocumentAt documentProcessors h i with
      | .error err => .error (.unpack err)
      | .ok ds => .ok ds

/-- The memory after the assignment `dd.SourceInformation = i.SourceInformation`. -/
def overwrite (h : Heap) (dd i : Ptr) : Heap :=
  fun p =>
    if p = dd then { h dd with SourceInformation := (h i).SourceInformation } else h p

/-- The memory and the local variables of `Process` that live across loop
iterations. -/
structure PtrState where
  heap : Heap
  docsToUnpack : List Ptr
  finalDocs : List Ptr

/-- The state of `Process` on entry to the loop, called on the pointer `i` in
the memory `h`. -/
def initStateAt (h : Heap) (i : Ptr) : PtrState :=
  { heap := h, docsToUnpack := [i], finalDocs := [] }

/-- One iteration of the loop body of `Process` on objects (the state is
returned unchanged when the loop condition is false). -/
def ProcessStepAt (jsonValid : List UInt8 → Bool) (documentProcessors : PtrRegistry)
    (i : Ptr) (s : PtrState) : PtrState :=
  match s.docsToUnpack with
  | [] => s
  | dd :: docsToUnpack =>
    match processDocumentAt jsonValid documentProcessors s.heap dd with
    | .error _ => { s with docsToUnpack := docsToUnpack }
    | .ok ds =>
      if ds.length > 0 then
        { s with docsToUnpack := docsToUnpack ++ ds }
      else
        { heap := overwrite s.heap dd i,
          docsToUnpack := docsToUnpack,
          finalDocs := s.finalDocs ++ [dd] }

/-- The `for len(docsToUnpack) > 0` loop of `Process` on objects, run for at
most `fuel` iterations. -/
def ProcessLoopAt (jsonValid : List UInt8 → Bool) (documentProcessors : PtrRegistry)
    (i : Ptr) : Nat → PtrState → Option PtrState
  | fuel, s =>
    if s.docsToUnpack.length > 0 then
      match fuel with
      | 0 => none
      | fuel + 1 =>
        ProcessLoopAt jsonValid documentProcessors i fuel
          (ProcessStepAt jsonValid documentProcessors i s)
    else
      some s

/-- `Process` on objects, with the loop bounded by `fuel`: the returned pair
(`finalDocs`, error) and the memory after the call. -/
def ProcessAt (jsonValid : List UInt8 → Bool) (documentProcessors : PtrRegistry)
    (h : Heap) (i : Ptr) (fuel : Nat) : Option ((List Ptr × Option Error) × Heap) :=
  match ProcessLoopAt jsonValid documentProcessors i fuel (initStateAt h i) with
  | none => none
  | some s => some ((s.finalDocs, none), s.heap)

/-- The pointers taken from the front of the worklist during the first `n`
iterations of the loop started in state `s`, in order. -/
def dequeuedAt (jsonValid : List UInt8 → Bool) (documentProcessors : PtrRegistry)
    (i : Ptr) : Nat → PtrState → List Ptr
  | 0, _ => []
  | n + 1, s =>
    match s.docsToUnpack with
    | [] => []
    | dd :: _ =>
      dd :: dequeuedAt jsonValid documentProcessors i n
        (ProcessStepAt jsonValid documentProcessors i s)

/-- The children that the loop enqueues for `p` when it reads it in the memory
`h`. -/
def childrenAt (jsonValid : List UInt8 → Bool) (documentProcessors : PtrRegistry)
    (h : Heap) (p : Ptr) : List Ptr :=
  match processDocumentAt jsonValid documentProcessors h p with
  | .ok ds => ds
  | .error _ => []

/-- In the memory `h`, `processDocument` succeeds on `p` with no children. -/
def isLeafAt (jsonValid : List UInt8 → Bool) (documentProcessors : PtrRegistry)
    (h : Heap) (p : Ptr) : Bool :=
  match processDocumentAt jsonValid documentProcessors h p with
  | .ok [] => true
  | _ => false

/-! ## Level-order reference on objects

Reference definitions against which the loop is compared.  They are not part of
the source; they read every document in the memory `h` in which `Process` is
called. -/

/-- The relation "`c` is among the children returned by a successful
`processDocument` on `d`", in the memory `h`. -/
def IsChildAt (jsonValid : List UInt8 → Bool) (documentProcessors : PtrRegistry)
    (h : Heap) (c d : Ptr) : Prop :=
  ∃ ds, processDocumentAt jsonValid documentProcessors h d = .ok ds ∧ c ∈ ds

/-- The non-empty child lists returned by `processDocument` for the documents of
`l` on which it succeeds, in the order of `l`. -/
def childListsAt (jsonValid : List UInt8 → Bool) (documentProcessors : PtrRegistry)
    (h : Heap) (l : List Ptr) : List (List Ptr) :=
  l.filterMap fun d =>
    match processDocumentAt jsonValid documentProcessors h d with
    | .ok (c :: cs) => some (c :: cs)
    | _ => none

/-- Reference definition of the generations of a root `i`: generation 0 is
`[i]`, generation `k + 1` is the in-order concatenation of the non-empty child
lists of the documents of generation `k`. -/
def generationAt (jsonValid : List UInt8 → Bool) (documentProcessors : PtrRegistry)
    (h : Heap) (i : Ptr) : Nat → List Ptr
  | 0 => [i]
  | k + 1 =>
    (childListsAt jsonValid documentProcessors h
      (generationAt jsonValid documentProcessors h i k)).flatten

/-- Reference definition of the result: the concatenation, over the generations
`k < K`, of the documents of generation `k` on which `processDocument` succeeds
with zero children, in their order within the generation. -/
def levelOrderAt (jsonValid : List UInt8 → Bool) (documentProcessors : PtrRegistry)
    (h : Heap) (i : Ptr) : Nat → List Ptr
  | 0 => []
  | K + 1 =>
    levelOrderAt jsonValid documentProcessors h i K ++
      (generationAt jsonValid documentProcessors h i K).filter
        (isLeafAt jsonValid documentProcessors h)

/-- The nodes of the expansion tree of `i` down to depth `K` (exclusive), level
by level: the concatenation of the generations `k < K`. -/
def nodesAt (jsonValid : List UInt8 → Bool) (documentProcessors : PtrRegistry)
    (h : Heap) (i : Ptr) : Nat → List Ptr
  | 0 => []
  | K + 1 =>
    nodesAt jsonValid documentProcessors h i K ++
      generationAt jsonValid documentProcessors h i K

/-- The documents one level below the documents of `l`: their children, in
order. -/
def expandAt (jsonValid : List UInt8 → Bool) (documentProcessors : PtrRegistry)
    (h : Heap) (l : List Ptr) : List Ptr :=
  l.flatMap (childrenAt jsonValid documentProcessors h)

/-- The worklist after one iteration when every document is read in the fixed
memory `h`. -/
def frozenNext (jsonValid : List UInt8 → Bool) (documentProcessors : PtrRegistry)
    (h : Heap) : List Ptr → List Ptr
  | [] => []
  | dd :: docsToUnpack => docsToUnpack ++ childrenAt jsonValid documentProcessors h dd

/-- The pointers dequeued in the first `n` iterations from the worklist `q` when
every document is read in the fixed memory `h`. -/
def frozenDequeued (jsonValid : List UInt8 → Bool) (documentProcessors : PtrRegistry)
    (h : Heap) : Nat → List Ptr → List Ptr
  | 0, _ => []
  | n + 1, q =>
    match q with
    | [] => []
    | dd :: _ =>
      dd :: frozenDequeued jsonValid documentProcessors h n
        (frozenNext jsonValid documentProcessors h q)

/-- The provenance overwrite does not change what `processDocument` returns for
`p`: the result on `p` after `p.SourceInformation = i.SourceInformation` is the
result on `p` as it is in `h`. -/
def Unaffected (jsonValid : List UInt8 → Bool) (documentProcessors : PtrRegistry)
    (h : Heap) (i p : Ptr) : Prop :=
  processDocumentAt jsonValid documentProcessors (overwrite h p i) p =
    processDocumentAt jsonValid documentProcessors h p

/-! ## Example memories -/

/-- A processor, called through pointers, that accepts every document and
unpacks it with `children`. -/
def acceptAllAt (children : Ptr → Document → List Ptr) : PtrProcessor :=
  { ValidateSchema := fun _ _ => .ok (),
    ValidateTrustInformation := fun _ _ => .ok [],
    Unpack := fun p d => .ok (children p d) }

/-- A memory with a "dup" root at 0, a "picky" document at 1, and documents of
the unregistered type "mystery" everywhere else. -/
def dupHeap : Heap := fun p =>
  if p = 0 then mkDoc "dup" "root"
  else if p = 1 then mkDoc "picky" "child"
  else mkDoc "mystery" "other"

/-- A registry in which "dup" unpacks to the pointer 1 twice, and "picky"
unpacks to the pointer 2 when the provenance names "root" and to nothing
otherwise. -/
def dupRegistry : PtrRegistry := fun t =>
  if t = "dup" then some (acceptAllAt fun _ _ => [1, 1])
  else if t = "picky" then
    some (acceptAllAt fun _ d => if d.SourceInformation.Source = "root" then [2] else [])
  else none

/-- The registry `dupRegistry` with a "picky" processor that returns the document
itself, instead of the pointer 2, when the provenance names "root". -/
def againRegistry : PtrRegistry := fun t =>
  if t = "dup" then some (acceptAllAt fun _ _ => [1, 1])
  else if t = "picky" then
    some (acceptAllAt fun p d => if d.SourceInformation.Source = "root" then [p] else [])
  else none

/-- A registry in which "dup" unpacks to the pointer 1 twice and "picky" is
terminal whatever the provenance. -/
def twinRegistry : PtrRegistry := fun t =>
  if t = "dup" then some (acceptAllAt fun _ _ => [1, 1])
  else if t = "picky" then some (acceptAllAt fun _ _ => [])
  else none

/-- A memory for the tree root -> [A, B], A -> [A1, A2]: the root at 0, A at 1,
B at 2, A1 at 3, A2 at 4. -/
def treeHeap : Heap := fun p =>
  if p = 0 then mkDoc "root" "origin"
  else if p = 1 then mkDoc "A" "a"
  else if p = 2 then mkDoc "B" "b"
  else if p = 3 then mkDoc "A1" "a1"
  else if p = 4 then mkDoc "A2" "a2"
  else mkDoc "mystery" "other"

/-- The registry of the tree in `treeHeap`: B, A1 and A2 are terminal. -/
def treePtrRegistry : PtrRegistry := fun t =>
  if t = "root" then some (acceptAllAt fun _ _ => [1, 2])
  else if t = "A" then some (acceptAllAt fun _ _ => [3, 4])
  else if t = "B" then some (acceptAllAt fun _ _ => [])
  else if t = "A1" then some (acceptAllAt fun _ _ => [])
  else if t = "A2" then some (acceptAllAt fun _ _ => [])
  else none

/-- The memory of the state `s` differs from the memory `h` of the call only by
the provenance overwrite of the documents in `finalDocs`. -/
def OnlyEmittedWritten (h : Heap) (i : Ptr) (s : PtrState) : Prop :=
  ∀ p, (p ∈ s.finalDocs → s.heap p = overwrite h p i p) ∧
    (p ∉ s.finalDocs → s.heap p = h p)

/-! ## Basic facts about the pipeline and the loop -/

theorem processDocument_ok_iff (jsonValid : List UInt8 → Bool) (reg : Registry)
    (dd : Document) (ds : List Document) :
    processDocument jsonValid reg dd = .ok ds ↔ PassesAll jsonValid reg dd ds := by
  unfold processDocument PassesAll validateDocument unpackDocument
  cases hf : validateFormat jsonValid dd with
  | error e => simp
  | ok u =>
    cases hr : reg dd.Type_ with
    | none => simp
    | some p =>
      cases hs : p.ValidateSchema dd with
      | error e => simp [hs]
      | ok u2 =>
        cases ht : p.ValidateTrustInformation dd with
        | error e => simp [hs, ht]
        | ok t =>
          cases hu : p.Unpack dd with
          | error e => simp [hs, ht, hu]
          | ok cs => simp [hs, ht, hu]

theorem ProcessStep_error (jsonValid : List UInt8 → Bool) (reg : Registry)
    (i dd : Document) (rest final : List Document) (e : Error)
    (h : processDocument jsonValid reg dd = .error e) :
    ProcessStep jsonValid reg i ⟨dd :: rest, final⟩ = ⟨rest, final⟩ := by
  simp [ProcessStep, h]

theorem ProcessStep_children (jsonValid : List UInt8 → Bool) (reg : Registry)
    (i dd : Document) (rest final ds : List Document)
    (h : processDocument jsonValid reg dd = .ok ds) (hne : ds ≠ []) :
    ProcessStep jsonValid reg i ⟨dd :: rest, final⟩ = ⟨rest ++ ds, final⟩ := by
  have : 0 < ds.length := List.length_pos.mpr hne
  simp [ProcessStep, h, this]

theorem ProcessStep_leaf (jsonValid : List UInt8 → Bool) (reg : Registry)
    (i dd : Document) (rest final : List Document)
    (h : processDocument jsonValid reg dd = .ok []) :
    ProcessStep jsonValid reg i ⟨dd :: rest, final⟩ = ⟨rest, final ++ [emit i dd]⟩ := by
  simp [ProcessStep, h]

theorem ProcessLoop_nil (jsonValid : List UInt8 → Bool) (reg : Registry)
    (i : Document) (fuel : Nat) (final : List Document) :
    ProcessLoop jsonValid reg i fuel ⟨[], final⟩ = some ⟨[], final⟩ := by
  cases fuel <;> simp [ProcessLoop]

theorem ProcessLoop_succ_cons (jsonValid : List UInt8 → Bool) (reg : Registry)
    (i : Document) (fuel : Nat) (dd : Document) (rest final : List Document) :
    ProcessLoop jsonValid reg i (fuel + 1) ⟨dd :: rest, final⟩ =
      ProcessLoop jsonValid reg i fuel (ProcessStep jsonValid reg i ⟨dd :: rest, final⟩) := by
  simp [ProcessLoop]

theorem ProcessLoop_zero_cons (jsonValid : List UInt8 → Bool) (reg : Registry)
    (i : Document) (dd : Document) (rest final : List Document) :
    ProcessLoop jsonValid reg i 0 ⟨dd :: rest, final⟩ = none := by
  simp [ProcessLoop]

theorem isLeaf_iff (jsonValid : List UInt8 → Bool) (reg : Registry) (dd : Document) :
    isLeaf jsonValid reg dd = true ↔ processDocument jsonValid reg dd = .ok [] := by
  unfold isLeaf
  cases h : processDocument jsonValid reg dd with
  | error e => simp
  | ok ds => cases ds <;> simp

/-- On exit the worklist is empty, and `finalDocs` has grown by exactly the
leaves among the dequeued documents, each emitted once, in dequeue order. -/
theorem ProcessLoop_finalDocs (jsonValid : List UInt8 → Bool) (reg : Registry)
    (i : Document) :
    ∀ (fuel : Nat) (s s' : State), ProcessLoop jsonValid reg i fuel s = some s' →
      s'.docsToUnpack = [] ∧
      s'.finalDocs = s.finalDocs ++
        ((dequeued jsonValid reg i fuel s).filter (isLeaf jsonValid reg)).map (emit i) := by
  intro fuel
  induction fuel with
  | zero =>
    intro s s' h
    obtain ⟨q, final⟩ := s
    cases q with
    | nil =>
      rw [ProcessLoop_nil] at h
      cases h
      simp [dequeued]
    | cons dd rest => simp [ProcessLoop_zero_cons] at h
  | succ n ih =>
    intro s s' h
    obtain ⟨q, final⟩ := s
    cases q with
    | nil =>
      rw [ProcessLoop_nil] at h
      cases h
      simp [dequeued]
    | cons dd rest =>
      rw [ProcessLoop_succ_cons] at h
      obtain ⟨h1, h2⟩ := ih _ _ h
      refine ⟨h1, ?_⟩
      rw [h2]
      simp only [dequeued]
      cases hp : processDocument jsonValid reg dd with
      | error e =>
        have hl : isLeaf jsonValid reg dd = false := by simp [isLeaf, hp]
        rw [ProcessStep_error _ _ _ _ _ _ _ hp]
        simp [List.filter_cons, hl]
      | ok ds =>
        cases ds with
        | nil =>
          have hl : isLeaf jsonValid reg dd = true := by simp [isLeaf, hp]
          rw [ProcessStep_leaf _ _ _ _ _ _ hp]
          simp [List.filter_cons, hl]
        | cons c cs =>
          have hl : isLeaf jsonValid reg dd = false := by simp [isLeaf, hp]
          rw [ProcessStep_children _ _ _ _ _ _ _ hp (by simp)]
          simp [List.filter_cons, hl]

/-- More fuel does not change the outcome of a loop that has finished. -/
theorem ProcessLoop_mono (jsonValid : List UInt8 → Bool) (reg : Registry)
    (i : Document) :
    ∀ (fuel : Nat) (s s' : State), ProcessLoop jsonValid reg i fuel s = some s' →
      ∀ fuel', fuel ≤ fuel' → ProcessLoop jsonValid reg i fuel' s = some s' := by
  intro fuel
  induction fuel with
  | zero =>
    intro s s' h fuel' _
    obtain ⟨q, final⟩ := s
    cases q with
    | nil => rw [ProcessLoop_nil] at h ⊢; exact h
    | cons dd rest => simp [ProcessLoop_zero_cons] at h
  | succ n ih =>
    intro s s' h fuel' hle
    obtain ⟨q, final⟩ := s
    cases q with
    | nil => rw [ProcessLoop_nil] at h ⊢; exact h
    | cons dd rest =>
      obtain ⟨m, rfl⟩ : ∃ m, fuel' = m + 1 := ⟨fuel' - 1, by omega⟩
      rw [ProcessLoop_succ_cons] at h ⊢
      exact ih _ _ h m (by omega)

theorem Process_eq_some_iff (jsonValid : List UInt8 → Bool) (reg : Registry)
    (i : Document) (fuel : Nat) (res : List Document) (err : Option Error) :
    Process jsonValid reg i fuel = some (res, err) ↔
      err = none ∧ ∃ s, ProcessLoop jsonValid reg i fuel (initState i) = some s ∧
        s.finalDocs = res := by
  unfold Process
  cases h : ProcessLoop jsonValid reg i fuel (initState i) with
  | none => simp
  | some s =>
    simp only [Option.some.injEq, Prod.mk.injEq, exists_eq_left']
    constructor
    · rintro ⟨h1, h2⟩; exact ⟨h2.symm, h1⟩
    · rintro ⟨h1, h2⟩; exact ⟨h2, h1.symm⟩

/-! ## Error containment, provenance -/

/-- C1: whenever `Process` returns, every returned document is the emitted form of a
document that was dequeued from the worklist and on which format validation, the
registry lookup, `ValidateSchema`, `ValidateTrustInformation` and `Unpack` all
succeeded, `Unpack` returning no children.  A dequeued document on which one of
these stages fails is dropped by the iteration that dequeued it: nothing is
appended to the result and nothing is enqueued. -/
theorem C1_result_documents_passed_all_checks (jsonValid : List UInt8 → Bool)
    (reg : Registry) (i : Document) (fuel : Nat) (res : List Document)
    (err : Option Error) (h : Process jsonValid reg i fuel = some (res, err)) :
    (∀ d ∈ res, ∃ dd ∈ dequeued jsonValid reg i fuel (initState i),
      d = emit i dd ∧ PassesAll jsonValid reg dd []) ∧
    (∀ dd : Document, (¬ ∃ ds, PassesAll jsonValid reg dd ds) →
      ∀ rest final : List Document,
        ProcessStep jsonValid reg i ⟨dd :: rest, final⟩ = ⟨rest, final⟩) := by
  constructor
  · obtain ⟨_, s, hs, rfl⟩ := (Process_eq_some_iff _ _ _ _ _ _).mp h
    obtain ⟨_, hfin⟩ := ProcessLoop_finalDocs jsonValid reg i fuel _ _ hs
    intro d hd
    rw [hfin] at hd
    simp only [initState, List.nil_append, List.mem_map, List.mem_filter] at hd
    obtain ⟨dd, ⟨hmem, hleaf⟩, rfl⟩ := hd
    refine ⟨dd, hmem, rfl, ?_⟩
    exact (processDocument_ok_iff _ _ _ _).mp ((isLeaf_iff _ _ _).mp hleaf)
  · intro dd hfail rest final
    cases hp : processDocument jsonValid reg dd with
    | error e => exact ProcessStep_error _ _ _ _ _ _ _ hp
    | ok ds => exact absurd ⟨ds, (processDocument_ok_iff _ _ _ _).mp hp⟩ hfail

/-- The hypothesis of C1 holds for the example envelope, and its conclusion follows. -/
theorem C1_witness :
    Process demoJsonValid demoRegistry (mkDoc "envelope" "root") 2
        = some ([mkDoc "leaf" "root"], none) ∧
    ((∀ d ∈ [mkDoc "leaf" "root"],
        ∃ dd ∈ dequeued demoJsonValid demoRegistry (mkDoc "envelope" "root") 2
            (initState (mkDoc "envelope" "root")),
          d = emit (mkDoc "envelope" "root") dd ∧
            PassesAll demoJsonValid demoRegistry dd []) ∧
      (∀ dd : Document, (¬ ∃ ds, PassesAll demoJsonValid demoRegistry dd ds) →
        ∀ rest final : List Document,
          ProcessStep demoJsonValid demoRegistry (mkDoc "envelope" "root")
            ⟨dd :: rest, final⟩ = ⟨rest, final⟩)) :=
  ⟨by decide,
    C1_result_documents_passed_all_checks demoJsonValid demoRegistry
      (mkDoc "envelope" "root") 2 [mkDoc "leaf" "root"] none (by decide)⟩

/-- C2: whenever `Process` returns, every returned document carries the
`SourceInformation` of the root passed to the call, so all returned documents
carry the same provenance. -/
theorem C2_result_provenance_is_root (jsonValid : List UInt8 → Bool)
    (reg : Registry) (i : Document) (fuel : Nat) (res : List Document)
    (err : Option Error) (h : Process jsonValid reg i fuel = some (res, err)) :
    (∀ d ∈ res, d.SourceInformation = i.SourceInformation) ∧
    (∀ d ∈ res, ∀ d' ∈ res, d.SourceInformation = d'.SourceInformation) := by
  have key : ∀ d ∈ res, d.SourceInformation = i.SourceInformation := by
    obtain ⟨_, s, hs, rfl⟩ := (Process_eq_some_iff _ _ _ _ _ _).mp h
    obtain ⟨_, hfin⟩ := ProcessLoop_finalDocs jsonValid reg i fuel _ _ hs
    intro d hd
    rw [hfin] at hd
    simp only [initState, List.nil_append, List.mem_map] at hd
    obtain ⟨dd, _, rfl⟩ := hd
    rfl
  exact ⟨key, fun d hd d' hd' => (key d hd).trans (key d' hd').symm⟩

/-- The example envelope unpacks to a child whose own provenance names "child";
the returned leaf carries the provenance of the root instead. -/
theorem C2_witness :
    Process demoJsonValid demoRegistry (mkDoc "envelope" "root") 2
        = some ([mkDoc "leaf" "root"], none) ∧
    processDocument demoJsonValid demoRegistry (mkDoc "envelope" "root")
        = .ok [mkDoc "leaf" "child"] ∧
    ((∀ d ∈ [mkDoc "leaf" "root"],
        d.SourceInformation = (mkDoc "envelope" "root").SourceInformation) ∧
      (∀ d ∈ [mkDoc "leaf" "root"], ∀ d' ∈ [mkDoc "leaf" "root"],
        d.SourceInformation = d'.SourceInformation)) :=
  ⟨by decide, rfl,
    C2_result_provenance_is_root demoJsonValid demoRegistry
      (mkDoc "envelope" "root") 2 [mkDoc "leaf" "root"] none (by decide)⟩

/-- C3: whenever `Process` returns, the returned error is nil.  A worklist entry
on which `processDocument` fails (at whatever stage) is skipped and the loop
goes on with the rest of the worklist; when the failing entry is the root, the
call returns the empty list and a nil error. -/
theorem C3_process_never_returns_error (jsonValid : List UInt8 → Bool)
    (reg : Registry) (i : Document) :
    (∀ (fuel : Nat) (res : List Document) (err : Option Error),
      Process jsonValid reg i fuel = some (res, err) → err = none) ∧
    (∀ (dd : Document) (e : Error), processDocument jsonValid reg dd = .error e →
      ∀ (fuel : Nat) (rest final : List Document),
        ProcessLoop jsonValid reg i (fuel + 1) ⟨dd :: rest, final⟩ =
          ProcessLoop jsonValid reg i fuel ⟨rest, final⟩) ∧
    (∀ e : Error, processDocument jsonValid reg i = .error e →
      ∀ fuel, 1 ≤ fuel → Process jsonValid reg i fuel = some ([], none)) := by
  refine ⟨?_, ?_, ?_⟩
  · intro fuel res err h
    exact ((Process_eq_some_iff _ _ _ _ _ _).mp h).1
  · intro dd e he fuel rest final
    rw [ProcessLoop_succ_cons, ProcessStep_error _ _ _ _ _ _ _ he]
  · intro e he fuel hfuel
    obtain ⟨m, rfl⟩ : ∃ m, fuel = m + 1 := ⟨fuel - 1, by omega⟩
    simp only [Process, initState]
    rw [ProcessLoop_succ_cons, ProcessStep_error _ _ _ _ _ _ _ he, ProcessLoop_nil]

/-- A root of the "broken" type fails schema validation; `Process` returns the
empty list and a nil error.  A failing child is skipped and its sibling is
still processed. -/
theorem C3_witness :
    processDocument demoJsonValid demoRegistry (mkDoc "broken" "root")
        = .error (.schema (.external "schema mismatch")) ∧
    Process demoJsonValid demoRegistry (mkDoc "broken" "root") 1 = some ([], none) ∧
    (none : Option Error) = none ∧
    ProcessLoop demoJsonValid demoRegistry (mkDoc "broken" "root") (0 + 1)
        ⟨mkDoc "broken" "root" :: [mkDoc "leaf" "x"], []⟩ =
      ProcessLoop demoJsonValid demoRegistry (mkDoc "broken" "root") 0
        ⟨[mkDoc "leaf" "x"], []⟩ :=
  have h := C3_process_never_returns_error demoJsonValid demoRegistry (mkDoc "broken" "root")
  ⟨rfl,
    h.2.2 (.schema (.external "schema mismatch")) rfl 1 (by decide),
    h.1 1 [] none (by decide),
    h.2.1 (mkDoc "broken" "root") (.schema (.external "schema mismatch")) rfl 0
      [mkDoc "leaf" "x"] []⟩

/-! ## Breadth-first order -/

theorem stepTagged_fst (jsonValid : List UInt8 → Bool) (reg : Registry) (i : Document)
    (q : List (Document × Nat)) (final : List Document) :
    (stepTagged jsonValid reg q).map Prod.fst =
      (ProcessStep jsonValid reg i ⟨q.map Prod.fst, final⟩).docsToUnpack := by
  cases q with
  | nil => simp [stepTagged, ProcessStep]
  | cons e rest =>
    obtain ⟨dd, k⟩ := e
    simp only [stepTagged, ProcessStep, List.map_cons]
    cases hp : processDocument jsonValid reg dd with
    | error e => simp
    | ok ds =>
      by_cases hl : ds.length > 0
      · simp [hl, Function.comp_def]
      · simp [hl]

theorem iterate_stepTagged_fst (jsonValid : List UInt8 → Bool) (reg : Registry)
    (i : Document) :
    ∀ (n : Nat) (q : List (Document × Nat)) (s : State), s.docsToUnpack = q.map Prod.fst →
      ((stepTagged jsonValid reg)^[n] q).map Prod.fst =
        ((ProcessStep jsonValid reg i)^[n] s).docsToUnpack := by
  intro n
  induction n with
  | zero => intro q s h; simpa using h.symm
  | succ n ih =>
    intro q s h
    rw [Function.iterate_succ_apply, Function.iterate_succ_apply]
    apply ih
    obtain ⟨w, final⟩ := s
    simp only at h
    subst h
    exact (stepTagged_fst jsonValid reg i q final).symm

theorem dequeuedTagged_fst (jsonValid : List UInt8 → Bool) (reg : Registry)
    (i : Document) :
    ∀ (n : Nat) (q : List (Document × Nat)) (s : State), s.docsToUnpack = q.map Prod.fst →
      (dequeuedTagged jsonValid reg n q).map Prod.fst = dequeued jsonValid reg i n s := by
  intro n
  induction n with
  | zero => intro q s _; simp [dequeuedTagged, dequeued]
  | succ n ih =>
    intro q s h
    obtain ⟨w, final⟩ := s
    simp only at h
    subst h
    cases q with
    | nil => simp [dequeuedTagged, dequeued]
    | cons e rest =>
      simp only [dequeuedTagged, dequeued, List.map_cons, List.cons.injEq, true_and]
      apply ih
      exact (stepTagged_fst jsonValid reg i (e :: rest) final).symm

theorem stepTagged_cons_mem (jsonValid : List UInt8 → Bool) (reg : Registry)
    (dd : Document) (k : Nat) (rest : List (Document × Nat)) (e : Document × Nat)
    (he : e ∈ stepTagged jsonValid reg ((dd, k) :: rest)) :
    e ∈ rest ∨ e.2 = k + 1 := by
  simp only [stepTagged] at he
  cases hp : processDocument jsonValid reg dd with
  | error err => rw [hp] at he; exact Or.inl he
  | ok ds =>
    rw [hp] at he
    by_cases hl : ds.length > 0
    · simp only [hl, if_true, List.mem_append, List.mem_map] at he
      rcases he with he | ⟨c, _, rfl⟩
      · exact Or.inl he
      · exact Or.inr rfl
    · simp only [hl, if_false] at he
      exact Or.inl he

theorem stepTagged_cons_snd (jsonValid : List UInt8 → Bool) (reg : Registry)
    (dd : Document) (k : Nat) (rest : List (Document × Nat)) :
    ∃ m, (stepTagged jsonValid reg ((dd, k) :: rest)).map Prod.snd =
      rest.map Prod.snd ++ List.replicate m (k + 1) := by
  simp only [stepTagged]
  cases hp : processDocument jsonValid reg dd with
  | error err => exact ⟨0, by simp⟩
  | ok ds =>
    by_cases hl : ds.length > 0
    · refine ⟨ds.length, ?_⟩
      simp only [hl, if_true, List.map_append, List.map_map, List.append_cancel_left_eq]
      apply List.ext_getElem <;> simp
    · exact ⟨0, by simp [hl]⟩

theorem Graded_next (k m : Nat) (l : List Nat) (h : Graded (k :: l)) :
    Graded (l ++ List.replicate m (k + 1)) := by
  obtain ⟨hs, hd⟩ := h
  rw [List.pairwise_cons] at hs
  have hlow : ∀ a ∈ l, k ≤ a := hs.1
  have hup : ∀ a ∈ l, a ≤ k + 1 := fun a ha =>
    hd a (List.mem_cons_of_mem _ ha) k (List.mem_cons_self _ _)
  have hrep : ∀ b ∈ List.replicate m (k + 1), b = k + 1 := fun b hb =>
    List.eq_of_mem_replicate hb
  constructor
  · rw [List.pairwise_append]
    refine ⟨hs.2, ?_, ?_⟩
    · exact List.pairwise_of_forall_mem_list fun a ha b hb => by
        rw [hrep a ha, hrep b hb]
    · intro a ha b hb
      rw [hrep b hb]
      exact hup a ha
  · intro a ha b hb
    have ha' : k ≤ a ∧ a ≤ k + 1 := by
      rcases List.mem_append.mp ha with ha | ha
      · exact ⟨hlow a ha, hup a ha⟩
      · rw [hrep a ha]; omega
    have hb' : k ≤ b ∧ b ≤ k + 1 := by
      rcases List.mem_append.mp hb with hb | hb
      · exact ⟨hlow b hb, hup b hb⟩
      · rw [hrep b hb]; omega
    omega

theorem Graded_stepTagged (jsonValid : List UInt8 → Bool) (reg : Registry)
    (q : List (Document × Nat)) (h : Graded (q.map Prod.snd)) :
    Graded ((stepTagged jsonValid reg q).map Prod.snd) := by
  cases q with
  | nil => simpa [stepTagged] using h
  | cons e rest =>
    obtain ⟨dd, k⟩ := e
    obtain ⟨m, hm⟩ := stepTagged_cons_snd jsonValid reg dd k rest
    rw [hm]
    exact Graded_next k m _ (by simpa using h)

theorem Graded_iterate_stepTagged (jsonValid : List UInt8 → Bool) (reg : Registry) :
    ∀ (n : Nat) (q : List (Document × Nat)), Graded (q.map Prod.snd) →
      Graded (((stepTagged jsonValid reg)^[n] q).map Prod.snd) := by
  intro n
  induction n with
  | zero => intro q h; simpa using h
  | succ n ih =>
    intro q h
    rw [Function.iterate_succ_apply]
    exact ih _ (Graded_stepTagged jsonValid reg q h)

theorem dequeuedTagged_lower (jsonValid : List UInt8 → Bool) (reg : Registry) (b : Nat) :
    ∀ (n : Nat) (q : List (Document × Nat)), (∀ e ∈ q, b ≤ e.2) →
      ∀ e ∈ dequeuedTagged jsonValid reg n q, b ≤ e.2 := by
  intro n
  induction n with
  | zero => intro q _ e he; simp [dequeuedTagged] at he
  | succ n ih =>
    intro q hq e he
    cases q with
    | nil => simp [dequeuedTagged] at he
    | cons x rest =>
      obtain ⟨dd, k⟩ := x
      simp only [dequeuedTagged, List.mem_cons] at he
      rcases he with rfl | he
      · exact hq _ (List.mem_cons_self _ _)
      · refine ih _ ?_ e he
        intro y hy
        rcases stepTagged_cons_mem jsonValid reg dd k rest y hy with hy | hy
        · exact hq y (List.mem_cons_of_mem _ hy)
        · have : b ≤ k := hq (dd, k) (List.mem_cons_self _ _)
          omega

theorem dequeuedTagged_sorted (jsonValid : List UInt8 → Bool) (reg : Registry) :
    ∀ (n : Nat) (q : List (Document × Nat)), Graded (q.map Prod.snd) →
      ((dequeuedTagged jsonValid reg n q).map Prod.snd).Pairwise (· ≤ ·) := by
  intro n
  induction n with
  | zero => intro q _; simp [dequeuedTagged]
  | succ n ih =>
    intro q hq
    cases q with
    | nil => simp [dequeuedTagged]
    | cons x rest =>
      obtain ⟨dd, k⟩ := x
      simp only [dequeuedTagged, List.map_cons, List.pairwise_cons]
      refine ⟨?_, ih _ (Graded_stepTagged jsonValid reg _ hq)⟩
      intro a ha
      obtain ⟨e, he, rfl⟩ := List.mem_map.mp ha
      refine dequeuedTagged_lower jsonValid reg k n _ ?_ e he
      intro y hy
      rcases stepTagged_cons_mem jsonValid reg dd k rest y hy with hy | hy
      · have hs := hq.1
        simp only [List.map_cons, List.pairwise_cons] at hs
        exact hs.1 _ (List.mem_map_of_mem _ hy)
      · omega

theorem iterate_stepTagged_lower (jsonValid : List UInt8 → Bool) (reg : Registry)
    (b : Nat) :
    ∀ (n : Nat) (q : List (Document × Nat)), (∀ e ∈ q, b ≤ e.2) →
      ∀ e ∈ (stepTagged jsonValid reg)^[n] q, b ≤ e.2 := by
  intro n
  induction n with
  | zero => intro q hq e he; exact hq e (by simpa using he)
  | succ n ih =>
    intro q hq e he
    rw [Function.iterate_succ_apply] at he
    refine ih _ ?_ e he
    intro y hy
    cases q with
    | nil => simp [stepTagged] at hy
    | cons x rest =>
      obtain ⟨dd, k⟩ := x
      rcases stepTagged_cons_mem jsonValid reg dd k rest y hy with hy | hy
      · exact hq y (List.mem_cons_of_mem _ hy)
      · have : b ≤ k := hq (dd, k) (List.mem_cons_self _ _)
        omega

theorem dequeuedTagged_le_pending (jsonValid : List UInt8 → Bool) (reg : Registry) :
    ∀ (n : Nat) (q : List (Document × Nat)), Graded (q.map Prod.snd) →
      ∀ x ∈ dequeuedTagged jsonValid reg n q,
        ∀ e ∈ (stepTagged jsonValid reg)^[n] q, x.2 ≤ e.2 := by
  intro n
  induction n with
  | zero => intro q _ x hx; simp [dequeuedTagged] at hx
  | succ n ih =>
    intro q hq x hx e he
    cases q with
    | nil => simp [dequeuedTagged] at hx
    | cons y rest =>
      obtain ⟨dd, k⟩ := y
      rw [Function.iterate_succ_apply] at he
      simp only [dequeuedTagged, List.mem_cons] at hx
      rcases hx with rfl | hx
      · refine iterate_stepTagged_lower jsonValid reg k n _ ?_ e he
        intro z hz
        rcases stepTagged_cons_mem jsonValid reg dd k rest z hz with hz | hz
        · have hs := hq.1
          simp only [List.map_cons, List.pairwise_cons] at hs
          exact hs.1 _ (List.mem_map_of_mem _ hz)
        · omega
      · exact ih _ (Graded_stepTagged jsonValid reg _ hq) x hx e he

theorem ProcessStep_docsToUnpack (jsonValid : List UInt8 → Bool) (reg : Registry)
    (i dd : Document) (rest final : List Document) :
    ∃ ds, (ProcessStep jsonValid reg i ⟨dd :: rest, final⟩).docsToUnpack = rest ++ ds := by
  simp only [ProcessStep]
  cases hp : processDocument jsonValid reg dd with
  | error e => exact ⟨[], by simp⟩
  | ok ds =>
    by_cases hl : ds.length > 0
    · exact ⟨ds, by simp [hl]⟩
    · exact ⟨[], by simp [hl]⟩

/-- C4: `Process` expands breadth-first.  The children returned for a dequeued
document are appended, in order, to the back of the worklist.  Tagging every
worklist entry with its depth below the root (children of a depth-`k` entry get
depth `k + 1`) does not change the run, the depths of the dequeued entries are
non-decreasing, at every point the depths in the worklist are non-decreasing
from the front and differ by at most one, and every entry still in the worklist
is at least as deep as every entry dequeued so far: no entry of depth `k + 1` is
dequeued while an entry of depth `k` is still to be dequeued, and once one has
been dequeued whatever is enqueued later is deeper than `k + 1`.  When the root
unpacks to `[A, B]`, `A` unpacks to `[A1, A2]` and `B` is terminal, the first
five dequeued documents are root, `A`, `B`, `A1`, `A2`. -/
theorem C4_breadth_first_order (jsonValid : List UInt8 → Bool) (reg : Registry)
    (i : Document) :
    (∀ (dd : Document) (ds : List Document),
      processDocument jsonValid reg dd = .ok ds → ds ≠ [] →
      ∀ rest final : List Document,
        ProcessStep jsonValid reg i ⟨dd :: rest, final⟩ = ⟨rest ++ ds, final⟩) ∧
    (∀ n : Nat,
      (dequeuedTagged jsonValid reg n [(i, 0)]).map Prod.fst =
        dequeued jsonValid reg i n (initState i) ∧
      ((stepTagged jsonValid reg)^[n] [(i, 0)]).map Prod.fst =
        ((ProcessStep jsonValid reg i)^[n] (initState i)).docsToUnpack) ∧
    (∀ n : Nat,
      ((dequeuedTagged jsonValid reg n [(i, 0)]).map Prod.snd).Pairwise (· ≤ ·)) ∧
    (∀ n : Nat, Graded (((stepTagged jsonValid reg)^[n] [(i, 0)]).map Prod.snd)) ∧
    (∀ n : Nat, ∀ x ∈ dequeuedTagged jsonValid reg n [(i, 0)],
      ∀ e ∈ (stepTagged jsonValid reg)^[n] [(i, 0)], x.2 ≤ e.2) ∧
    (∀ A B A1 A2 : Document,
      processDocument jsonValid reg i = .ok [A, B] →
      processDocument jsonValid reg A = .ok [A1, A2] →
      processDocument jsonValid reg B = .ok [] →
      dequeued jsonValid reg i 5 (initState i) = [i, A, B, A1, A2]) := by
  have hg : Graded (([(i, 0)] : List (Document × Nat)).map Prod.snd) := by
    constructor <;> simp
  refine ⟨?_, ?_, ?_, ?_, ?_, ?_⟩
  · intro dd ds h hne rest final
    exact ProcessStep_children _ _ _ _ _ _ _ h hne
  · intro n
    exact ⟨dequeuedTagged_fst jsonValid reg i n _ _ rfl,
      iterate_stepTagged_fst jsonValid reg i n _ _ rfl⟩
  · intro n
    exact dequeuedTagged_sorted jsonValid reg n _ hg
  · intro n
    exact Graded_iterate_stepTagged jsonValid reg n _ hg
  · intro n
    exact dequeuedTagged_le_pending jsonValid reg n _ hg
  · intro A B A1 A2 hi hA hB
    obtain ⟨ds, hds⟩ := ProcessStep_docsToUnpack jsonValid reg i A1 [A2] [emit i B]
    simp only [dequeued, initState]
    rw [ProcessStep_children _ _ _ _ _ _ _ hi (by simp)]
    simp only [List.nil_append]
    rw [ProcessStep_children _ _ _ _ _ _ _ hA (by simp)]
    simp only [List.singleton_append]
    rw [ProcessStep_leaf _ _ _ _ _ _ hB]
    simp only [List.nil_append, hds, List.singleton_append]

/-- The example "tree" root unpacks to a "branch" `A` and a "leaf" `B`, and `A`
unpacks to the leaves `A1` and `A2`: the documents are dequeued level by level. -/
theorem C4_witness :
    processDocument demoJsonValid demoRegistry (mkDoc "tree" "root")
        = .ok [mkDoc "branch" "A", mkDoc "leaf" "B"] ∧
    processDocument demoJsonValid demoRegistry (mkDoc "branch" "A")
        = .ok [mkDoc "leaf" "A1", mkDoc "leaf" "A2"] ∧
    processDocument demoJsonValid demoRegistry (mkDoc "leaf" "B") = .ok [] ∧
    dequeued demoJsonValid demoRegistry (mkDoc "tree" "root") 5
        (initState (mkDoc "tree" "root")) =
      [mkDoc "tree" "root", mkDoc "branch" "A", mkDoc "leaf" "B",
        mkDoc "leaf" "A1", mkDoc "leaf" "A2"] ∧
    dequeuedTagged demoJsonValid demoRegistry 5 [(mkDoc "tree" "root", 0)] =
      [(mkDoc "tree" "root", 0), (mkDoc "branch" "A", 1), (mkDoc "leaf" "B", 1),
        (mkDoc "leaf" "A1", 2), (mkDoc "leaf" "A2", 2)] :=
  ⟨rfl, rfl, rfl,
    (C4_breadth_first_order demoJsonValid demoRegistry (mkDoc "tree" "root")).2.2.2.2.2
      (mkDoc "branch" "A") (mkDoc "leaf" "B") (mkDoc "leaf" "A1") (mkDoc "leaf" "A2")
      rfl rfl rfl,
    by decide⟩

/-! ## Leaves -/

theorem emit_self (i : Document) : emit i i = i := rfl

theorem Process_of_loop (jsonValid : List UInt8 → Bool) (reg : Registry)
    (i : Document) (fuel fuel' : Nat) (s : State) (hle : fuel ≤ fuel')
    (h : ProcessLoop jsonValid reg i fuel (initState i) = some s) :
    Process jsonValid reg i fuel' = some (s.finalDocs, none) := by
  simp [Process, ProcessLoop_mono jsonValid reg i fuel _ _ h fuel' hle]

/-- C5: a dequeued document that passes all checks and unpacks to zero children
is appended to the result once by the iteration that dequeued it and nothing is
enqueued for it; the list returned by `Process` consists of exactly the emitted
forms of the dequeued leaves, one per dequeued entry, in dequeue order.  A root
that passes all checks and unpacks to zero children gives the result `[root]`
with a nil error. -/
theorem C5_leaf_emitted_once (jsonValid : List UInt8 → Bool) (reg : Registry)
    (i : Document) :
    (∀ dd : Document, PassesAll jsonValid reg dd [] →
      ∀ rest final : List Document,
        ProcessStep jsonValid reg i ⟨dd :: rest, final⟩ =
          ⟨rest, final ++ [emit i dd]⟩) ∧
    (∀ (fuel : Nat) (res : List Document) (err : Option Error),
      Process jsonValid reg i fuel = some (res, err) →
      res = ((dequeued jsonValid reg i fuel (initState i)).filter
        (isLeaf jsonValid reg)).map (emit i)) ∧
    (PassesAll jsonValid reg i [] →
      ∀ fuel, 1 ≤ fuel → Process jsonValid reg i fuel = some ([i], none)) := by
  refine ⟨?_, ?_, ?_⟩
  · intro dd hdd rest final
    exact ProcessStep_leaf _ _ _ _ _ _ ((processDocument_ok_iff _ _ _ _).mpr hdd)
  · intro fuel res err h
    obtain ⟨_, s, hs, rfl⟩ := (Process_eq_some_iff _ _ _ _ _ _).mp h
    obtain ⟨_, hfin⟩ := ProcessLoop_finalDocs jsonValid reg i fuel _ _ hs
    simpa [initState] using hfin
  · intro hi fuel hfuel
    have hp := (processDocument_ok_iff _ _ _ _).mpr hi
    have h1 : ProcessLoop jsonValid reg i 1 (initState i) = some ⟨[], [i]⟩ := by
      simp only [initState]
      rw [ProcessLoop_succ_cons, ProcessStep_leaf _ _ _ _ _ _ hp, ProcessLoop_nil]
      simp [emit_self]
    exact Process_of_loop jsonValid reg i 1 fuel _ hfuel h1

/-- A root of the terminal "leaf" type is returned as the only result. -/
theorem C5_witness :
    PassesAll demoJsonValid demoRegistry (mkDoc "leaf" "root") [] ∧
    Process demoJsonValid demoRegistry (mkDoc "leaf" "root") 1
        = some ([mkDoc "leaf" "root"], none) ∧
    ProcessStep demoJsonValid demoRegistry (mkDoc "leaf" "root")
        ⟨mkDoc "leaf" "x" :: [mkDoc "tree" "y"], []⟩ =
      ⟨[mkDoc "tree" "y"], [] ++ [emit (mkDoc "leaf" "root") (mkDoc "leaf" "x")]⟩ :=
  have hroot : PassesAll demoJsonValid demoRegistry (mkDoc "leaf" "root") [] :=
    ⟨rfl, acceptAll fun _ => [], rfl, rfl, ⟨[], rfl⟩, rfl⟩
  have hx : PassesAll demoJsonValid demoRegistry (mkDoc "leaf" "x") [] :=
    ⟨rfl, acceptAll fun _ => [], rfl, rfl, ⟨[], rfl⟩, rfl⟩
  have h := C5_leaf_emitted_once demoJsonValid demoRegistry (mkDoc "leaf" "root")
  ⟨hroot, h.2.2 hroot 1 (by decide), h.1 (mkDoc "leaf" "x") hx [mkDoc "tree" "y"] []⟩

/-! ## Registry overwrite -/

theorem RegisterDocumentProcessor_overwrite (p1 p2 : DocumentProcessor)
    (d : DocumentType) (reg : Registry) :
    (RegisterDocumentProcessor p2 d (RegisterDocumentProcessor p1 d reg).2).2 =
      (RegisterDocumentProcessor p2 d reg).2 := by
  funext t
  by_cases h : t = d <;> simp [RegisterDocumentProcessor, h]

/-- C6: registering `p1` and then `p2` for the same tag `d` leaves `d` bound to
`p2` (the second registration logs the overwrite warning and cannot fail).  For
a document of type `d` the registry then dispatches `ValidateSchema`,
`ValidateTrustInformation` and `Unpack` to `p2`, and every `Process` call gives
the same outcome as if `p1` had never been registered, whatever `p1` is. -/
theorem C6_registry_overwrite (jsonValid : List UInt8 → Bool) (reg : Registry)
    (d : DocumentType) (p1 p2 : DocumentProcessor) :
    (RegisterDocumentProcessor p2 d (RegisterDocumentProcessor p1 d reg).2).2 d
        = some p2 ∧
    (RegisterDocumentProcessor p2 d (RegisterDocumentProcessor p1 d reg).2).1
        = ["the document processor is being overwritten: " ++ d] ∧
    (∀ doc : Document, doc.Type_ = d →
      validateDocument
          (RegisterDocumentProcessor p2 d (RegisterDocumentProcessor p1 d reg).2).2 doc
        = (match p2.ValidateSchema doc with
          | .error err => .error (.schema err)
          | .ok _ =>
            match p2.ValidateTrustInformation doc with
            | .error err => .error (.trust err)
            | .ok trustInfo => .ok trustInfo) ∧
      unpackDocument
          (RegisterDocumentProcessor p2 d (RegisterDocumentProcessor p1 d reg).2).2 doc
        = p2.Unpack doc) ∧
    (∀ (i : Document) (fuel : Nat),
      Process jsonValid
          (RegisterDocumentProcessor p2 d (RegisterDocumentProcessor p1 d reg).2).2 i fuel
        = Process jsonValid (RegisterDocumentProcessor p2 d reg).2 i fuel) ∧
    (∀ (q1 : DocumentProcessor) (i : Document) (fuel : Nat),
      Process jsonValid
          (RegisterDocumentProcessor p2 d (RegisterDocumentProcessor p1 d reg).2).2 i fuel
        = Process jsonValid
          (RegisterDocumentProcessor p2 d (RegisterDocumentProcessor q1 d reg).2).2 i fuel) := by
  refine ⟨?_, ?_, ?_, ?_, ?_⟩
  · simp [RegisterDocumentProcessor]
  · simp [RegisterDocumentProcessor]
  · intro doc hdoc
    subst hdoc
    constructor
    · simp [validateDocument, RegisterDocumentProcessor]
    · simp [unpackDocument, RegisterDocumentProcessor]
  · intro i fuel
    rw [RegisterDocumentProcessor_overwrite]
  · intro q1 i fuel
    rw [RegisterDocumentProcessor_overwrite, RegisterDocumentProcessor_overwrite]

/-- Registering the rejecting processor and then an accepting one for "leaf" in
the empty registry: the second registration wins and a "leaf" root is returned. -/
theorem C6_witness :
    Process demoJsonValid
        (RegisterDocumentProcessor (acceptAll fun _ => []) "leaf"
          (RegisterDocumentProcessor rejectSchema "leaf" emptyRegistry).2).2
        (mkDoc "leaf" "root") 1 = some ([mkDoc "leaf" "root"], none) ∧
    Process demoJsonValid
        (RegisterDocumentProcessor rejectSchema "leaf" emptyRegistry).2
        (mkDoc "leaf" "root") 1 = some ([], none) ∧
    unpackDocument
        (RegisterDocumentProcessor (acceptAll fun _ => []) "leaf"
          (RegisterDocumentProcessor rejectSchema "leaf" emptyRegistry).2).2
        (mkDoc "leaf" "root") = (acceptAll fun _ => []).Unpack (mkDoc "leaf" "root") :=
  ⟨by decide, by decide,
    ((C6_registry_overwrite demoJsonValid emptyRegistry "leaf" rejectSchema
      (acceptAll fun _ => [])).2.2.1 (mkDoc "leaf" "root") rfl).2⟩

/-! ## Containment scenarios -/

theorem processDocument_schema_fails (jsonValid : List UInt8 → Bool) (reg : Registry)
    (dd : Document) (p : DocumentProcessor) (e : Error)
    (hp : reg dd.Type_ = some p) (hs : p.ValidateSchema dd = .error e) :
    ∃ e', processDocument jsonValid reg dd = .error e' := by
  unfold processDocument validateDocument
  cases hf : validateFormat jsonValid dd with
  | error e0 => exact ⟨e0, rfl⟩
  | ok u => exact ⟨.schema e, by simp [hp, hs]⟩

/-- C7: when the root passes all checks and unpacks to two children, one whose
`ValidateSchema` fails and one that passes all checks and unpacks to zero
children (in either order), `Process` returns exactly the passing child, with
the provenance of the root, and a nil error. -/
theorem C7_containment (jsonValid : List UInt8 → Bool) (reg : Registry)
    (root bad good : Document) (pb : DocumentProcessor) (e : Error)
    (hroot : PassesAll jsonValid reg root [bad, good] ∨
      PassesAll jsonValid reg root [good, bad])
    (hbad : reg bad.Type_ = some pb ∧ pb.ValidateSchema bad = .error e)
    (hgood : PassesAll jsonValid reg good [])
    (fuel : Nat) (hfuel : 3 ≤ fuel) :
    Process jsonValid reg root fuel = some ([emit root good], none) ∧
    (emit root good).SourceInformation = root.SourceInformation := by
  refine ⟨?_, rfl⟩
  obtain ⟨eb, hb⟩ := processDocument_schema_fails jsonValid reg bad pb e hbad.1 hbad.2
  have hg := (processDocument_ok_iff _ _ _ _).mpr hgood
  have h3 : ProcessLoop jsonValid reg root 3 (initState root) =
      some ⟨[], [emit root good]⟩ := by
    simp only [initState]
    rcases hroot with hr | hr
    · have hr' := (processDocument_ok_iff _ _ _ _).mpr hr
      rw [ProcessLoop_succ_cons, ProcessStep_children _ _ _ _ _ _ _ hr' (by simp)]
      simp only [List.nil_append]
      rw [ProcessLoop_succ_cons, ProcessStep_error _ _ _ _ _ _ _ hb]
      rw [ProcessLoop_succ_cons, ProcessStep_leaf _ _ _ _ _ _ hg, ProcessLoop_nil]
      simp
    · have hr' := (processDocument_ok_iff _ _ _ _).mpr hr
      rw [ProcessLoop_succ_cons, ProcessStep_children _ _ _ _ _ _ _ hr' (by simp)]
      simp only [List.nil_append]
      rw [ProcessLoop_succ_cons, ProcessStep_leaf _ _ _ _ _ _ hg]
      rw [ProcessLoop_succ_cons, ProcessStep_error _ _ _ _ _ _ _ hb, ProcessLoop_nil]
      simp
  exact Process_of_loop jsonValid reg root 3 fuel _ hfuel h3

/-- The example "pair" root unpacks to a "broken" child followed by a "leaf"
child: only the leaf is returned, with the provenance of the root. -/
theorem C7_witness :
    PassesAll demoJsonValid demoRegistry (mkDoc "pair" "root")
      [mkDoc "broken" "first", mkDoc "leaf" "second"] ∧
    (demoRegistry (mkDoc "broken" "first").Type_ = some rejectSchema ∧
      rejectSchema.ValidateSchema (mkDoc "broken" "first")
        = .error (.external "schema mismatch")) ∧
    PassesAll demoJsonValid demoRegistry (mkDoc "leaf" "second") [] ∧
    (Process demoJsonValid demoRegistry (mkDoc "pair" "root") 3
        = some ([emit (mkDoc "pair" "root") (mkDoc "leaf" "second")], none) ∧
      (emit (mkDoc "pair" "root") (mkDoc "leaf" "second")).SourceInformation
        = (mkDoc "pair" "root").SourceInformation) ∧
    Process demoJsonValid demoRegistry (mkDoc "riap" "root") 3
        = some ([mkDoc "leaf" "root"], none) :=
  have hroot : PassesAll demoJsonValid demoRegistry (mkDoc "pair" "root")
      [mkDoc "broken" "first", mkDoc "leaf" "second"] :=
    ⟨rfl, acceptAll fun _ => [mkDoc "broken" "first", mkDoc "leaf" "second"],
      rfl, rfl, ⟨[], rfl⟩, rfl⟩
  have hbad : demoRegistry (mkDoc "broken" "first").Type_ = some rejectSchema ∧
      rejectSchema.ValidateSchema (mkDoc "broken" "first")
        = .error (.external "schema mismatch") := ⟨rfl, rfl⟩
  have hgood : PassesAll demoJsonValid demoRegistry (mkDoc "leaf" "second") [] :=
    ⟨rfl, acceptAll fun _ => [], rfl, rfl, ⟨[], rfl⟩, rfl⟩
  ⟨hroot, hbad, hgood,
    C7_containment demoJsonValid demoRegistry (mkDoc "pair" "root")
      (mkDoc "broken" "first") (mkDoc "leaf" "second") rejectSchema
      (.external "schema mismatch") (Or.inl hroot) hbad hgood 3 (by decide),
    (C7_containment demoJsonValid demoRegistry (mkDoc "riap" "root")
      (mkDoc "broken" "second") (mkDoc "leaf" "first") rejectSchema
      (.external "schema mismatch")
      (Or.inr ⟨rfl, acceptAll fun _ => [mkDoc "leaf" "first", mkDoc "broken" "second"],
        rfl, rfl, ⟨[], rfl⟩, rfl⟩)
      ⟨rfl, rfl⟩ ⟨rfl, acceptAll fun _ => [], rfl, rfl, ⟨[], rfl⟩, rfl⟩ 3 (by decide)).1⟩

/-! ## Unregistered types and format validation -/

/-- C8, as stated, fails: a document whose type is unregistered and whose format
tag is not `FormatJSON` is rejected by `processDocument` with the format error,
not with the "no document processor registered" error. -/
theorem C8_counterexample :
    demoRegistry ({ mkDoc "mystery" "root" with Format := "XML" } : Document).Type_ = none ∧
    processDocument demoJsonValid demoRegistry
        { mkDoc "mystery" "root" with Format := "XML" } = .error (.invalidFormat "XML") ∧
    ¬ (∀ (jsonValid : List UInt8 → Bool) (reg : Registry) (d : Document),
        reg d.Type_ = none →
        processDocument jsonValid reg d = .error (.noProcessor d.Type_)) := by
  refine ⟨rfl, rfl, ?_⟩
  intro h
  have h1 := h demoJsonValid demoRegistry { mkDoc "mystery" "root" with Format := "XML" } rfl
  have h2 : processDocument demoJsonValid demoRegistry
      { mkDoc "mystery" "root" with Format := "XML" } = .error (.invalidFormat "XML") := rfl
  rw [h2] at h1
  cases h1

/-- C8 (amended): for a document whose type has no binding in the registry,
`validateDocument` fails with the "no document processor registered" error;
`processDocument` fails, with that error when format validation passes and with
the format error otherwise; the iteration that dequeues the document appends no
leaf and enqueues no children; and when the root's type is unregistered
`Process` returns the empty list and a nil error. -/
theorem C8_unregistered_type (jsonValid : List UInt8 → Bool) (reg : Registry)
    (d : Document) (hd : reg d.Type_ = none) :
    validateDocument reg d = .error (.noProcessor d.Type_) ∧
    (validateFormat jsonValid d = .ok () →
      processDocument jsonValid reg d = .error (.noProcessor d.Type_)) ∧
    (∀ e, validateFormat jsonValid d = .error e →
      processDocument jsonValid reg d = .error e) ∧
    (∃ e, processDocument jsonValid reg d = .error e) ∧
    (∀ (i : Document) (rest final : List Document),
      ProcessStep jsonValid reg i ⟨d :: rest, final⟩ = ⟨rest, final⟩) ∧
    (∀ fuel, 1 ≤ fuel → Process jsonValid reg d fuel = some ([], none)) := by
  have hv : validateDocument reg d = .error (.noProcessor d.Type_) := by
    simp [validateDocument, hd]
  have h1 : validateFormat jsonValid d = .ok () →
      processDocument jsonValid reg d = .error (.noProcessor d.Type_) := by
    intro hf
    simp [processDocument, hf, hv]
  have h2 : ∀ e, validateFormat jsonValid d = .error e →
      processDocument jsonValid reg d = .error e := by
    intro e hf
    simp [processDocument, hf]
  have h3 : ∃ e, processDocument jsonValid reg d = .error e := by
    cases hf : validateFormat jsonValid d with
    | error e => exact ⟨e, h2 e hf⟩
    | ok u => exact ⟨_, h1 hf⟩
  obtain ⟨e, he⟩ := h3
  refine ⟨hv, h1, h2, ⟨e, he⟩, ?_, ?_⟩
  · intro i rest final
    exact ProcessStep_error _ _ _ _ _ _ _ he
  · intro fuel hfuel
    have hl : ProcessLoop jsonValid reg d 1 (initState d) = some ⟨[], []⟩ := by
      simp only [initState]
      rw [ProcessLoop_succ_cons, ProcessStep_error _ _ _ _ _ _ _ he, ProcessLoop_nil]
    exact Process_of_loop jsonValid reg d 1 fuel _ hfuel hl

/-- A well-formed root of the unregistered type "mystery" is dropped with the
"no document processor registered" error and `Process` returns nothing. -/
theorem C8_witness :
    demoRegistry (mkDoc "mystery" "root").Type_ = none ∧
    processDocument demoJsonValid demoRegistry (mkDoc "mystery" "root")
        = .error (.noProcessor "mystery") ∧
    Process demoJsonValid demoRegistry (mkDoc "mystery" "root") 1 = some ([], none) :=
  have h := C8_unregistered_type demoJsonValid demoRegistry (mkDoc "mystery" "root") rfl
  ⟨rfl, h.2.1 rfl, h.2.2.2.2.2 1 (by decide)⟩

/-- C9: `validateFormat` succeeds exactly when the format tag is `FormatJSON` and
the blob is valid JSON; a JSON document with an invalid blob is rejected as
invalid JSON and any other format tag is rejected as an invalid format.  For a
root that fails format validation `Process` returns no leaves and a nil error. -/
theorem C9_format_validation (jsonValid : List UInt8 → Bool) (reg : Registry)
    (i : Document) :
    (validateFormat jsonValid i = .ok () ↔
      i.Format = FormatJSON ∧ jsonValid i.Blob = true) ∧
    (i.Format = FormatJSON → jsonValid i.Blob = false →
      validateFormat jsonValid i = .error .invalidJSON) ∧
    (i.Format ≠ FormatJSON →
      validateFormat jsonValid i = .error (.invalidFormat i.Format)) ∧
    ((i.Format ≠ FormatJSON ∨ jsonValid i.Blob = false) →
      ∀ fuel, 1 ≤ fuel → Process jsonValid reg i fuel = some ([], none)) := by
  have hiff : validateFormat jsonValid i = .ok () ↔
      i.Format = FormatJSON ∧ jsonValid i.Blob = true := by
    unfold validateFormat
    by_cases hf : i.Format = FormatJSON
    · cases hb : jsonValid i.Blob <;> simp [hf]
    · simp [hf]
  refine ⟨hiff, ?_, ?_, ?_⟩
  · intro hf hb
    simp [validateFormat, hf, hb]
  · intro hf
    simp [validateFormat, hf]
  · intro hbad fuel hfuel
    have hne : validateFormat jsonValid i ≠ .ok () := by
      rw [Ne, hiff]
      rintro ⟨h1, h2⟩
      rcases hbad with hbad | hbad
      · exact hbad h1
      · rw [h2] at hbad; cases hbad
    have hp : ∃ e, processDocument jsonValid reg i = .error e := by
      unfold processDocument
      cases hf : validateFormat jsonValid i with
      | error e => exact ⟨e, rfl⟩
      | ok u => exact absurd hf hne
    obtain ⟨e, he⟩ := hp
    have hl : ProcessLoop jsonValid reg i 1 (initState i) = some ⟨[], []⟩ := by
      simp only [initState]
      rw [ProcessLoop_succ_cons, ProcessStep_error _ _ _ _ _ _ _ he, ProcessLoop_nil]
    exact Process_of_loop jsonValid reg i 1 fuel _ hfuel hl

/-- A "leaf" root declaring JSON with the payload `{` (not valid JSON), and one
declaring the format "XML", both give zero leaves and a nil error. -/
theorem C9_witness :
    validateFormat demoJsonValid { mkDoc "leaf" "root" with Blob := [123] }
        = .error .invalidJSON ∧
    Process demoJsonValid demoRegistry { mkDoc "leaf" "root" with Blob := [123] } 1
        = some ([], none) ∧
    validateFormat demoJsonValid { mkDoc "leaf" "root" with Format := "XML" }
        = .error (.invalidFormat "XML") ∧
    Process demoJsonValid demoRegistry { mkDoc "leaf" "root" with Format := "XML" } 1
        = some ([], none) :=
  ⟨(C9_format_validation demoJsonValid demoRegistry
      { mkDoc "leaf" "root" with Blob := [123] }).2.1 rfl rfl,
    (C9_format_validation demoJsonValid demoRegistry
      { mkDoc "leaf" "root" with Blob := [123] }).2.2.2 (Or.inr rfl) 1 (by decide),
    (C9_format_validation demoJsonValid demoRegistry
      { mkDoc "leaf" "root" with Format := "XML" }).2.2.1 (by decide),
    (C9_format_validation demoJsonValid demoRegistry
      { mkDoc "leaf" "root" with Format := "XML" }).2.2.2 (Or.inl (by decide)) 1 (by decide)⟩

/-! ## Round trip -/

/-- C10: with an "envelope" processor that accepts the root and unpacks it to one
well-formed JSON child of type "leaf", and a "leaf" processor that accepts that
child and unpacks it to nothing, `Process` on a well-formed JSON root of type
"envelope" returns exactly one document and a nil error; that document has type
"leaf" and the `SourceInformation` of the root, and the envelope is not in the
result. -/
theorem C10_round_trip (jsonValid : List UInt8 → Bool) (reg : Registry)
    (root child : Document) (pe pl : DocumentProcessor) (te tl : TrustInfo)
    (hpe : reg "envelope" = some pe) (hpl : reg "leaf" = some pl)
    (hrt : root.Type_ = "envelope") (hrf : root.Format = FormatJSON)
    (hrj : jsonValid root.Blob = true)
    (hrs : pe.ValidateSchema root = .ok ())
    (hrv : pe.ValidateTrustInformation root = .ok te)
    (hru : pe.Unpack root = .ok [child])
    (hct : child.Type_ = "leaf") (hcf : child.Format = FormatJSON)
    (hcj : jsonValid child.Blob = true)
    (hcs : pl.ValidateSchema child = .ok ())
    (hcv : pl.ValidateTrustInformation child = .ok tl)
    (hcu : pl.Unpack child = .ok [])
    (fuel : Nat) (hfuel : 2 ≤ fuel) :
    Process jsonValid reg root fuel = some ([emit root child], none) ∧
    (emit root child).Type_ = "leaf" ∧
    (emit root child).SourceInformation = root.SourceInformation ∧
    root ∉ [emit root child] := by
  have hr : processDocument jsonValid reg root = .ok [child] := by
    rw [processDocument_ok_iff]
    refine ⟨by simp [validateFormat, hrf, hrj], pe, by rw [hrt]; exact hpe, hrs,
      ⟨te, hrv⟩, hru⟩
  have hc : processDocument jsonValid reg child = .ok [] := by
    rw [processDocument_ok_iff]
    refine ⟨by simp [validateFormat, hcf, hcj], pl, by rw [hct]; exact hpl, hcs,
      ⟨tl, hcv⟩, hcu⟩
  have h2 : ProcessLoop jsonValid reg root 2 (initState root) =
      some ⟨[], [emit root child]⟩ := by
    simp only [initState]
    rw [ProcessLoop_succ_cons, ProcessStep_children _ _ _ _ _ _ _ hr (by simp)]
    simp only [List.nil_append]
    rw [ProcessLoop_succ_cons, ProcessStep_leaf _ _ _ _ _ _ hc, ProcessLoop_nil]
    simp
  refine ⟨Process_of_loop jsonValid reg root 2 fuel _ hfuel h2, hct, rfl, ?_⟩
  intro hmem
  have heq : root = emit root child := by simpa using hmem
  have : root.Type_ = "leaf" := by rw [heq]; exact hct
  rw [hrt] at this
  exact absurd this (by decide)

/-- The example registry and the example envelope meet the hypotheses of C10: the
result is the single leaf, carrying the provenance of the root. -/
theorem C10_witness :
    Process demoJsonValid demoRegistry (mkDoc "envelope" "root") 2
        = some ([emit (mkDoc "envelope" "root") (mkDoc "leaf" "child")], none) ∧
    (emit (mkDoc "envelope" "root") (mkDoc "leaf" "child")).Type_ = "leaf" ∧
    (emit (mkDoc "envelope" "root") (mkDoc "leaf" "child")).SourceInformation
        = (mkDoc "envelope" "root").SourceInformation ∧
    mkDoc "envelope" "root" ∉ [emit (mkDoc "envelope" "root") (mkDoc "leaf" "child")] :=
  C10_round_trip demoJsonValid demoRegistry (mkDoc "envelope" "root")
    (mkDoc "leaf" "child") (acceptAll fun _ => [mkDoc "leaf" "child"])
    (acceptAll fun _ => []) [] [] rfl rfl rfl rfl rfl rfl rfl rfl rfl rfl rfl rfl rfl rfl
    2 (by decide)

/-! ## The loop as an iteration of `ProcessStep` -/

theorem ProcessStep_nil (jsonValid : List UInt8 → Bool) (reg : Registry)
    (i : Document) (final : List Document) :
    ProcessStep jsonValid reg i ⟨[], final⟩ = ⟨[], final⟩ := rfl

theorem ProcessStep_cons (jsonValid : List UInt8 → Bool) (reg : Registry)
    (i dd : Document) (rest final : List Document) :
    ProcessStep jsonValid reg i ⟨dd :: rest, final⟩ =
      ⟨rest ++ childrenOf jsonValid reg dd, final ++ leafOut jsonValid reg i dd⟩ := by
  cases hp : processDocument jsonValid reg dd with
  | error e =>
    rw [ProcessStep_error _ _ _ _ _ _ _ hp]
    simp [childrenOf, leafOut, isLeaf, hp]
  | ok ds =>
    cases ds with
    | nil =>
      rw [ProcessStep_leaf _ _ _ _ _ _ hp]
      simp [childrenOf, leafOut, isLeaf, hp]
    | cons c cs =>
      rw [ProcessStep_children _ _ _ _ _ _ _ hp (by simp)]
      simp [childrenOf, leafOut, isLeaf, hp]

theorem iterate_ProcessStep_nil (jsonValid : List UInt8 → Bool) (reg : Registry)
    (i : Document) (final : List Document) (n : Nat) :
    (ProcessStep jsonValid reg i)^[n] ⟨[], final⟩ = ⟨[], final⟩ :=
  Function.iterate_fixed (ProcessStep_nil jsonValid reg i final) n

theorem ProcessLoop_of_iterate_cons (jsonValid : List UInt8 → Bool) (reg : Registry)
    (i : Document) :
    ∀ (n : Nat) (s : State),
      ((ProcessStep jsonValid reg i)^[n] s).docsToUnpack ≠ [] →
      ProcessLoop jsonValid reg i n s = none := by
  intro n
  induction n with
  | zero =>
    intro s h
    obtain ⟨q, final⟩ := s
    cases q with
    | nil => simp at h
    | cons dd rest => exact ProcessLoop_zero_cons _ _ _ _ _ _
  | succ n ih =>
    intro s h
    obtain ⟨q, final⟩ := s
    cases q with
    | nil => rw [iterate_ProcessStep_nil] at h; simp at h
    | cons dd rest =>
      rw [Function.iterate_succ_apply] at h
      rw [ProcessLoop_succ_cons]
      exact ih _ h

/-! ## Leaf invariant -/

/-- C11, as stated, fails: the "picky" root unpacks to one child, the child is
terminal as dequeued and is emitted with the provenance of the root, and
`Unpack` on the emitted document returns a child again. -/
theorem C11_counterexample :
    Process demoJsonValid pickyRegistry (mkDoc "picky" "root") 2
        = some ([mkDoc "picky" "root"], none) ∧
    pickyRegistry (mkDoc "picky" "root").Type_ = some pickyProcessor ∧
    pickyProcessor.Unpack (mkDoc "picky" "root") = .ok [mkDoc "picky" "child"] ∧
    ¬ (∀ (jsonValid : List UInt8 → Bool) (reg : Registry) (i : Document) (fuel : Nat)
        (res : List Document) (err : Option Error),
        Process jsonValid reg i fuel = some (res, err) →
        ∀ d ∈ res, ∀ p, reg d.Type_ = some p → p.Unpack d = .ok []) := by
  refine ⟨by decide, rfl, rfl, ?_⟩
  intro h
  have h1 := h demoJsonValid pickyRegistry (mkDoc "picky" "root") 2
    [mkDoc "picky" "root"] none (by decide) (mkDoc "picky" "root") (by simp)
    pickyProcessor rfl
  have h2 : pickyProcessor.Unpack (mkDoc "picky" "root") = .ok [mkDoc "picky" "child"] := rfl
  rw [h2] at h1
  cases h1

/-- C11 (amended): every document returned by `Process` is the emitted form of a
dequeued document whose type is bound to a processor and on which that
processor's `Unpack` returned zero children when it was processed; and when the
`Unpack` of every registered processor does not depend on `SourceInformation`,
`Unpack` on the returned document itself yields zero children. -/
theorem C11_leaf_invariant (jsonValid : List UInt8 → Bool) (reg : Registry)
    (i : Document) (fuel : Nat) (res : List Document) (err : Option Error)
    (h : Process jsonValid reg i fuel = some (res, err)) :
    (∀ d ∈ res, ∃ dd ∈ dequeued jsonValid reg i fuel (initState i),
      d = emit i dd ∧ ∃ p, reg d.Type_ = some p ∧ p.Unpack dd = .ok [] ∧
        unpackDocument reg dd = .ok []) ∧
    ((∀ (t : DocumentType) (p : DocumentProcessor), reg t = some p →
        ∀ (x : Document) (s : SourceInformation),
          p.Unpack { x with SourceInformation := s } = p.Unpack x) →
      ∀ d ∈ res, ∃ p, reg d.Type_ = some p ∧ p.Unpack d = .ok [] ∧
        unpackDocument reg d = .ok []) := by
  have key : ∀ d ∈ res, ∃ dd ∈ dequeued jsonValid reg i fuel (initState i),
      d = emit i dd ∧ ∃ p, reg d.Type_ = some p ∧ p.Unpack dd = .ok [] ∧
        unpackDocument reg dd = .ok [] := by
    obtain ⟨_, s, hs, rfl⟩ := (Process_eq_some_iff _ _ _ _ _ _).mp h
    obtain ⟨_, hfin⟩ := ProcessLoop_finalDocs jsonValid reg i fuel _ _ hs
    intro d hd
    rw [hfin] at hd
    simp only [initState, List.nil_append, List.mem_map, List.mem_filter] at hd
    obtain ⟨dd, ⟨hmem, hleaf⟩, rfl⟩ := hd
    obtain ⟨_, p, hp, _, _, hu⟩ :=
      (processDocument_ok_iff _ _ _ _).mp ((isLeaf_iff _ _ _).mp hleaf)
    exact ⟨dd, hmem, rfl, p, hp, hu, by simp [unpackDocument, hp, hu]⟩
  refine ⟨key, ?_⟩
  intro hind d hd
  obtain ⟨dd, _, rfl, p, hp, hu, _⟩ := key d hd
  have hu' : p.Unpack (emit i dd) = .ok [] := by
    rw [← hu]
    exact hind _ p hp dd i.SourceInformation
  exact ⟨p, hp, hu', by simp [unpackDocument, hp, hu']⟩

/-- In the example registry no `Unpack` looks at the provenance: the leaf returned
for the example envelope is still terminal. -/
theorem C11_witness :
    Process demoJsonValid demoRegistry (mkDoc "envelope" "root") 2
        = some ([mkDoc "leaf" "root"], none) ∧
    (∀ d ∈ [mkDoc "leaf" "root"], ∃ p, demoRegistry d.Type_ = some p ∧
      p.Unpack d = .ok [] ∧ unpackDocument demoRegistry d = .ok []) :=
  ⟨by decide,
    (C11_leaf_invariant demoJsonValid demoRegistry (mkDoc "envelope" "root") 2
      [mkDoc "leaf" "root"] none (by decide)).2 (by
        intro t p hp x s
        unfold demoRegistry at hp
        split_ifs at hp <;> (cases hp; rfl))⟩

/-! ## Stage order -/

/-- C12: `processDocument` runs format check, registry lookup, `ValidateSchema`,
`ValidateTrustInformation` and `Unpack` in this order and returns the error of
the first stage that fails, whatever the later stages would return: a format
error is returned under every registry; an unregistered type is reported
once the format check has passed; a schema failure is reported whatever trust
validation and `Unpack` do; a trust failure whatever `Unpack` does; and the
children of `Unpack` are returned only when all earlier stages passed. -/
theorem C12_stage_order (jsonValid : List UInt8 → Bool) (d : Document) :
    (∀ e, validateFormat jsonValid d = .error e →
      ∀ reg : Registry, processDocument jsonValid reg d = .error e) ∧
    (validateFormat jsonValid d = .ok () →
      ∀ reg : Registry, reg d.Type_ = none →
        processDocument jsonValid reg d = .error (.noProcessor d.Type_)) ∧
    (validateFormat jsonValid d = .ok () →
      ∀ (reg : Registry) (p : DocumentProcessor) (e : Error),
        reg d.Type_ = some p → p.ValidateSchema d = .error e →
        processDocument jsonValid reg d = .error (.schema e)) ∧
    (validateFormat jsonValid d = .ok () →
      ∀ (reg : Registry) (p : DocumentProcessor) (e : Error),
        reg d.Type_ = some p → p.ValidateSchema d = .ok () →
        p.ValidateTrustInformation d = .error e →
        processDocument jsonValid reg d = .error (.trust e)) ∧
    (validateFormat jsonValid d = .ok () →
      ∀ (reg : Registry) (p : DocumentProcessor) (t : TrustInfo) (e : Error),
        reg d.Type_ = some p → p.ValidateSchema d = .ok () →
        p.ValidateTrustInformation d = .ok t → p.Unpack d = .error e →
        processDocument jsonValid reg d = .error (.unpack e)) ∧
    (validateFormat jsonValid d = .ok () →
      ∀ (reg : Registry) (p : DocumentProcessor) (t : TrustInfo) (ds : List Document),
        reg d.Type_ = some p → p.ValidateSchema d = .ok () →
        p.ValidateTrustInformation d = .ok t → p.Unpack d = .ok ds →
        processDocument jsonValid reg d = .ok ds) := by
  refine ⟨?_, ?_, ?_, ?_, ?_, ?_⟩
  · intro e hf reg
    simp [processDocument, hf]
  · intro hf reg hr
    simp [processDocument, validateDocument, hf, hr]
  · intro hf reg p e hr hs
    simp [processDocument, validateDocument, hf, hr, hs]
  · intro hf reg p e hr hs ht
    simp [processDocument, validateDocument, hf, hr, hs, ht]
  · intro hf reg p t e hr hs ht hu
    simp [processDocument, validateDocument, unpackDocument, hf, hr, hs, ht, hu]
  · intro hf reg p t ds hr hs ht hu
    simp [processDocument, validateDocument, unpackDocument, hf, hr, hs, ht, hu]

/-- A document with the malformed payload `{` gets the format error both under
the example registry, where its type is bound, and under the empty registry; a
well-formed "broken" document gets the schema error although its processor's
trust validation and `Unpack` would succeed. -/
theorem C12_witness :
    processDocument demoJsonValid demoRegistry { mkDoc "leaf" "root" with Blob := [123] }
        = .error .invalidJSON ∧
    processDocument demoJsonValid emptyRegistry { mkDoc "leaf" "root" with Blob := [123] }
        = .error .invalidJSON ∧
    processDocument demoJsonValid demoRegistry (mkDoc "broken" "root")
        = .error (.schema (.external "schema mismatch")) ∧
    processDocument demoJsonValid demoRegistry (mkDoc "mystery" "root")
        = .error (.noProcessor "mystery") :=
  ⟨(C12_stage_order demoJsonValid { mkDoc "leaf" "root" with Blob := [123] }).1
      .invalidJSON rfl demoRegistry,
    (C12_stage_order demoJsonValid { mkDoc "leaf" "root" with Blob := [123] }).1
      .invalidJSON rfl emptyRegistry,
    (C12_stage_order demoJsonValid (mkDoc "broken" "root")).2.2.1 rfl demoRegistry
      rejectSchema (.external "schema mismatch") rfl rfl,
    (C12_stage_order demoJsonValid (mkDoc "mystery" "root")).2.1 rfl demoRegistry rfl⟩

/-! ## Trust metadata is not consumed -/

theorem ProcessStep_congr (j₁ j₂ : List UInt8 → Bool) (r₁ r₂ : Registry) (i : Document)
    (hc : ∀ d, childrenOf j₁ r₁ d = childrenOf j₂ r₂ d)
    (hl : ∀ d, isLeaf j₁ r₁ d = isLeaf j₂ r₂ d) (s : State) :
    ProcessStep j₁ r₁ i s = ProcessStep j₂ r₂ i s := by
  obtain ⟨q, final⟩ := s
  cases q with
  | nil => rfl
  | cons dd rest => rw [ProcessStep_cons, ProcessStep_cons, hc, leafOut, leafOut, hl]

theorem Process_congr (j₁ j₂ : List UInt8 → Bool) (r₁ r₂ : Registry) (i : Document)
    (hc : ∀ d, childrenOf j₁ r₁ d = childrenOf j₂ r₂ d)
    (hl : ∀ d, isLeaf j₁ r₁ d = isLeaf j₂ r₂ d) (fuel : Nat) :
    Process j₁ r₁ i fuel = Process j₂ r₂ i fuel := by
  have hstep : ProcessStep j₁ r₁ i = ProcessStep j₂ r₂ i :=
    funext (ProcessStep_congr j₁ j₂ r₁ r₂ i hc hl)
  have hloop : ∀ (n : Nat) (s : State),
      ProcessLoop j₁ r₁ i n s = ProcessLoop j₂ r₂ i n s := by
    intro n
    induction n with
    | zero => intro s; simp [ProcessLoop]
    | succ n ih =>
      intro s
      obtain ⟨q, final⟩ := s
      cases q with
      | nil => rw [ProcessLoop_nil, ProcessLoop_nil]
      | cons dd rest => rw [ProcessLoop_succ_cons, ProcessLoop_succ_cons, hstep, ih]
  simp [Process, hloop]

/-- C13: the trust metadata is not consumed.  When two registries bind the same
type tags, and the processors bound to a tag agree on `ValidateSchema`, on
`Unpack` and on whether `ValidateTrustInformation` succeeds (the returned map
may differ), `Process` gives the same outcome under both for every root. -/
theorem C13_trust_info_not_consumed (jsonValid : List UInt8 → Bool)
    (reg₁ reg₂ : Registry)
    (hdom : ∀ t, reg₁ t = none ↔ reg₂ t = none)
    (hagree : ∀ (t : DocumentType) (p₁ p₂ : DocumentProcessor),
      reg₁ t = some p₁ → reg₂ t = some p₂ →
      ∀ d : Document, p₁.ValidateSchema d = p₂.ValidateSchema d ∧
        p₁.Unpack d = p₂.Unpack d ∧
        ((∃ t₁, p₁.ValidateTrustInformation d = .ok t₁) ↔
          (∃ t₂, p₂.ValidateTrustInformation d = .ok t₂)))
    (i : Document) (fuel : Nat) :
    Process jsonValid reg₁ i fuel = Process jsonValid reg₂ i fuel := by
  have hok : ∀ d ds, processDocument jsonValid reg₁ d = .ok ds ↔
      processDocument jsonValid reg₂ d = .ok ds := by
    intro d ds
    rw [processDocument_ok_iff, processDocument_ok_iff]
    constructor
    · rintro ⟨hf, p₁, hp, hs, ht, hu⟩
      cases h₂ : reg₂ d.Type_ with
      | none => rw [(hdom _).mpr h₂] at hp; cases hp
      | some p₂ =>
        obtain ⟨a, b, c⟩ := hagree _ p₁ p₂ hp h₂ d
        exact ⟨hf, p₂, h₂, a ▸ hs, c.mp ht, b ▸ hu⟩
    · rintro ⟨hf, p₂, hp, hs, ht, hu⟩
      cases h₁ : reg₁ d.Type_ with
      | none => rw [(hdom _).mp h₁] at hp; cases hp
      | some p₁ =>
        obtain ⟨a, b, c⟩ := hagree _ p₁ p₂ h₁ hp d
        exact ⟨hf, p₁, h₁, a ▸ hs, c.mpr ht, b ▸ hu⟩
  have hc : ∀ d, childrenOf jsonValid reg₁ d = childrenOf jsonValid reg₂ d := by
    intro d
    unfold childrenOf
    cases h₁ : processDocument jsonValid reg₁ d with
    | ok ds => rw [(hok d ds).mp h₁]
    | error e =>
      cases h₂ : processDocument jsonValid reg₂ d with
      | ok ds => rw [(hok d ds).mpr h₂] at h₁; cases h₁
      | error e' => rfl
  have hl : ∀ d, isLeaf jsonValid reg₁ d = isLeaf jsonValid reg₂ d := by
    intro d
    rw [Bool.eq_iff_iff, isLeaf_iff, isLeaf_iff]
    exact hok d []
  exact Process_congr jsonValid jsonValid reg₁ reg₂ i hc hl fuel

theorem signedRegistry_none_iff (t : DocumentType) :
    demoRegistry t = none ↔ signedRegistry t = none := by
  unfold signedRegistry
  cases demoRegistry t <;> simp

theorem signedRegistry_agrees (t : DocumentType) (p₁ p₂ : DocumentProcessor)
    (h₁ : demoRegistry t = some p₁) (h₂ : signedRegistry t = some p₂) (d : Document) :
    p₁.ValidateSchema d = p₂.ValidateSchema d ∧ p₁.Unpack d = p₂.Unpack d ∧
      ((∃ t₁, p₁.ValidateTrustInformation d = .ok t₁) ↔
        (∃ t₂, p₂.ValidateTrustInformation d = .ok t₂)) := by
  unfold signedRegistry at h₂
  rw [h₁] at h₂
  simp only [Option.some.injEq] at h₂
  subst h₂
  refine ⟨rfl, rfl, ?_⟩
  cases ht : p₁.ValidateTrustInformation d <;> simp [ht]

/-- The registries `demoRegistry` and `signedRegistry` differ only in the trust
map their processors return; `Process` gives the same outcome under both. -/
theorem C13_witness :
    validateDocument demoRegistry (mkDoc "leaf" "root") = .ok [] ∧
    validateDocument signedRegistry (mkDoc "leaf" "root") = .ok [("signer", "alice")] ∧
    Process demoJsonValid signedRegistry (mkDoc "envelope" "root") 2
        = some ([mkDoc "leaf" "root"], none) ∧
    Process demoJsonValid demoRegistry (mkDoc "envelope" "root") 2
        = Process demoJsonValid signedRegistry (mkDoc "envelope" "root") 2 :=
  ⟨rfl, rfl, by decide,
    C13_trust_info_not_consumed demoJsonValid demoRegistry signedRegistry
      signedRegistry_none_iff signedRegistry_agrees (mkDoc "envelope" "root") 2⟩

/-! ## Absence of a bound -/

theorem Process_self_unpack (jsonValid : List UInt8 → Bool) (reg : Registry)
    (i : Document) (h : PassesAll jsonValid reg i [i]) :
    (∀ n, (ProcessStep jsonValid reg i)^[n] (initState i) = initState i) ∧
    (∀ fuel, Process jsonValid reg i fuel = none) := by
  have hp := (processDocument_ok_iff _ _ _ _).mpr h
  have hstep : ProcessStep jsonValid reg i (initState i) = initState i := by
    simp only [initState]
    rw [ProcessStep_children _ _ _ _ _ _ _ hp (by simp)]
    rfl
  have hiter : ∀ n, (ProcessStep jsonValid reg i)^[n] (initState i) = initState i :=
    fun n => Function.iterate_fixed hstep n
  refine ⟨hiter, ?_⟩
  intro fuel
  have hnone := ProcessLoop_of_iterate_cons jsonValid reg i fuel (initState i)
    (by rw [hiter]; simp [initState])
  simp [Process, hnone]

/-- C14: `Process` has no cycle detection and no depth or size bound.  There is a
registry and a well-formed root, accepted by its processor, whose `Unpack`
returns the root itself; and for every registry and root of this kind the
worklist is `[root]` again after every number of iterations, in particular
never empty, and `Process` does not return, whatever the fuel. -/
theorem C14_no_cycle_detection :
    (∃ (reg : Registry) (i : Document), PassesAll demoJsonValid reg i [i]) ∧
    (∀ (jsonValid : List UInt8 → Bool) (reg : Registry) (i : Document),
      PassesAll jsonValid reg i [i] →
      (∀ n, ((ProcessStep jsonValid reg i)^[n] (initState i)).docsToUnpack = [i]) ∧
      (∀ n, ((ProcessStep jsonValid reg i)^[n] (initState i)).docsToUnpack ≠ []) ∧
      (∀ fuel, Process jsonValid reg i fuel = none)) := by
  refine ⟨⟨selfRegistry, mkDoc "self" "root", rfl, acceptAll fun d => [d], rfl, rfl,
    ⟨[], rfl⟩, rfl⟩, ?_⟩
  intro jsonValid reg i h
  obtain ⟨h1, h2⟩ := Process_self_unpack jsonValid reg i h
  refine ⟨fun n => by rw [h1]; rfl, fun n => by rw [h1]; simp [initState], h2⟩

/-- The "self" root of `selfRegistry` unpacks to itself: the loop is still
running after any number of iterations. -/
theorem C14_witness :
    PassesAll demoJsonValid selfRegistry (mkDoc "self" "root") [mkDoc "self" "root"] ∧
    (∀ n, ((ProcessStep demoJsonValid selfRegistry (mkDoc "self" "root"))^[n]
      (initState (mkDoc "self" "root"))).docsToUnpack ≠ []) ∧
    (∀ fuel, Process demoJsonValid selfRegistry (mkDoc "self" "root") fuel = none) :=
  have hp : PassesAll demoJsonValid selfRegistry (mkDoc "self" "root")
      [mkDoc "self" "root"] :=
    ⟨rfl, acceptAll fun d => [d], rfl, rfl, ⟨[], rfl⟩, rfl⟩
  have h := C14_no_cycle_detection.2 demoJsonValid selfRegistry (mkDoc "self" "root") hp
  ⟨hp, h.2.1, h.2.2⟩

/-! ## Generations in the worklist -/

/-- C15, as stated, fails: after two iterations on the example tree the worklist
holds `B` of depth 1 together with `A1` and `A2` of depth 2. -/
theorem C15_counterexample :
    (stepTagged demoJsonValid treeRegistry)^[2] [(mkDoc "root" "origin", 0)] =
      [(mkDoc "B" "b", 1), (mkDoc "A1" "a1", 2), (mkDoc "A2" "a2", 2)] ∧
    ((ProcessStep demoJsonValid treeRegistry (mkDoc "root" "origin"))^[2]
      (initState (mkDoc "root" "origin"))).docsToUnpack =
      [mkDoc "B" "b", mkDoc "A1" "a1", mkDoc "A2" "a2"] ∧
    ¬ (∃ k, ∀ e ∈ (stepTagged demoJsonValid treeRegistry)^[2]
        [(mkDoc "root" "origin", 0)], e.2 = k) := by
  have h : (stepTagged demoJsonValid treeRegistry)^[2] [(mkDoc "root" "origin", 0)] =
      [(mkDoc "B" "b", 1), (mkDoc "A1" "a1", 2), (mkDoc "A2" "a2", 2)] := by decide
  refine ⟨h, by decide, ?_⟩
  rw [h]
  rintro ⟨k, hk⟩
  have h1 := hk (mkDoc "B" "b", 1) (by simp)
  have h2 := hk (mkDoc "A1" "a1", 2) (by simp)
  simp only at h1 h2
  omega

/-- C15 (amended): at every point of a `Process` call the documents held in the
worklist belong to at most two consecutive generations, `k` and `k + 1`, those
of generation `k` standing in front of those of generation `k + 1`. -/
theorem C15_two_generations (jsonValid : List UInt8 → Bool) (reg : Registry)
    (i : Document) (n : Nat) :
    ((stepTagged jsonValid reg)^[n] [(i, 0)]).map Prod.fst =
      ((ProcessStep jsonValid reg i)^[n] (initState i)).docsToUnpack ∧
    (((stepTagged jsonValid reg)^[n] [(i, 0)]).map Prod.snd).Pairwise (· ≤ ·) ∧
    ∃ k, ∀ e ∈ (stepTagged jsonValid reg)^[n] [(i, 0)], e.2 = k ∨ e.2 = k + 1 := by
  have hg : Graded (([(i, 0)] : List (Document × Nat)).map Prod.snd) := by
    constructor <;> simp
  have hG := Graded_iterate_stepTagged jsonValid reg n _ hg
  refine ⟨iterate_stepTagged_fst jsonValid reg i n _ _ rfl, hG.1, ?_⟩
  cases hq : (stepTagged jsonValid reg)^[n] [(i, 0)] with
  | nil => exact ⟨0, by simp⟩
  | cons x rest =>
    rw [hq] at hG
    refine ⟨x.2, ?_⟩
    intro e he
    have hlow : x.2 ≤ e.2 := by
      rcases List.mem_cons.mp he with rfl | he'
      · exact Nat.le_refl _
      · have hs := hG.1
        simp only [List.map_cons, List.pairwise_cons] at hs
        exact hs.1 _ (List.mem_map_of_mem _ he')
    have hup : e.2 ≤ x.2 + 1 :=
      hG.2 e.2 (List.mem_map_of_mem _ he) x.2 (List.mem_map_of_mem _ (List.mem_cons_self _ _))
    omega

/-- On the example tree, after two iterations, the worklist holds generations 1
and 2. -/
theorem C15_witness :
    ∃ k, ∀ e ∈ (stepTagged demoJsonValid treeRegistry)^[2] [(mkDoc "root" "origin", 0)],
      e.2 = k ∨ e.2 = k + 1 :=
  (C15_two_generations demoJsonValid treeRegistry (mkDoc "root" "origin") 2).2.2

/-! ## Registry frame and the second lookup -/

/-- C19: `RegisterDocumentProcessor(p, d)` binds `d` to `p` and leaves the
binding, or the absence of a binding, of every other type tag as it was; and a
`Process` call leaves the package state, that is every binding of
`documentProcessors`, as it was. -/
theorem C19_registration_frame (jsonValid : List UInt8 → Bool) (g : Package)
    (p : DocumentProcessor) (d : DocumentType) :
    (∀ t : DocumentType, t ≠ d →
      (RegisterDocumentProcessor p d g.documentProcessors).2 t = g.documentProcessors t) ∧
    (∀ t : DocumentType, t ≠ d →
      (RegisterOn p d g).2.documentProcessors t = g.documentProcessors t) ∧
    (RegisterOn p d g).2.documentProcessors d = some p ∧
    (∀ (i : Document) (fuel : Nat),
      (ProcessOn jsonValid i fuel g).2 = g ∧
      (ProcessOn jsonValid i fuel g).1 = Process jsonValid g.documentProcessors i fuel) := by
  refine ⟨?_, ?_, ?_, ?_⟩
  · intro t ht
    simp [RegisterDocumentProcessor, ht]
  · intro t ht
    simp [RegisterOn, RegisterDocumentProcessor, ht]
  · simp [RegisterOn, RegisterDocumentProcessor]
  · intro i fuel
    exact ⟨rfl, rfl⟩

/-- Registering a processor for "leaf" in the example registry leaves the
"envelope" binding and the absence of a "mystery" binding as they were. -/
theorem C19_witness :
    (RegisterOn rejectSchema "leaf" ⟨demoRegistry⟩).2.documentProcessors "mystery" = none ∧
    (RegisterOn rejectSchema "leaf" ⟨demoRegistry⟩).2.documentProcessors "envelope"
      = demoRegistry "envelope" ∧
    (ProcessOn demoJsonValid (mkDoc "envelope" "root") 2 ⟨demoRegistry⟩).1
      = some ([mkDoc "leaf" "root"], none) :=
  have h := C19_registration_frame demoJsonValid ⟨demoRegistry⟩ rejectSchema "leaf"
  ⟨h.2.1 "mystery" (by decide), h.2.1 "envelope" (by decide), by decide⟩

/-- C20: within `processDocument` (one registry for both lookups), when
`validateDocument` has succeeded `unpackDocument` finds a processor for the
type, the same one, and its result is that processor's `Unpack` result; so
`processDocument` returns the children of `Unpack`, or the error of `Unpack`
wrapped as "unable to unpack document", never the lookup failure of
`unpackDocument`. -/
theorem C20_second_lookup_succeeds (jsonValid : List UInt8 → Bool) (reg : Registry)
    (d : Document) (trustInfo : TrustInfo)
    (hv : validateDocument reg d = .ok trustInfo) :
    ∃ p, reg d.Type_ = some p ∧
      p.ValidateSchema d = .ok () ∧
      p.ValidateTrustInformation d = .ok trustInfo ∧
      unpackDocument reg d = p.Unpack d ∧
      (validateFormat jsonValid d = .ok () →
        processDocument jsonValid reg d =
          match p.Unpack d with
          | .ok ds => .ok ds
          | .error e => .error (.unpack e)) := by
  unfold validateDocument at hv
  cases hr : reg d.Type_ with
  | none => rw [hr] at hv; cases hv
  | some p =>
    rw [hr] at hv
    simp only at hv
    cases hs : p.ValidateSchema d with
    | error e => rw [hs] at hv; cases hv
    | ok u =>
      rw [hs] at hv
      simp only at hv
      cases ht : p.ValidateTrustInformation d with
      | error e => rw [ht] at hv; cases hv
      | ok t =>
        rw [ht] at hv
        simp only [Except.ok.injEq] at hv
        subst hv
        refine ⟨p, rfl, hs, ht, by simp [unpackDocument, hr], ?_⟩
        intro hf
        simp only [processDocument, hf, validateDocument, unpackDocument, hr, hs, ht]
        cases p.Unpack d <;> rfl

/-- For the example envelope `validateDocument` succeeds and the second lookup
finds the envelope processor again. -/
theorem C20_witness :
    validateDocument demoRegistry (mkDoc "envelope" "root") = .ok [] ∧
    ∃ p, demoRegistry (mkDoc "envelope" "root").Type_ = some p ∧
      p.ValidateSchema (mkDoc "envelope" "root") = .ok () ∧
      p.ValidateTrustInformation (mkDoc "envelope" "root") = .ok [] ∧
      unpackDocument demoRegistry (mkDoc "envelope" "root")
        = p.Unpack (mkDoc "envelope" "root") ∧
      (validateFormat demoJsonValid (mkDoc "envelope" "root") = .ok () →
        processDocument demoJsonValid demoRegistry (mkDoc "envelope" "root") =
          match p.Unpack (mkDoc "envelope" "root") with
          | .ok ds => .ok ds
          | .error e => .error (.unpack e)) :=
  ⟨rfl, C20_second_lookup_succeeds demoJsonValid demoRegistry (mkDoc "envelope" "root")
    [] rfl⟩

/-! ## The loop on objects -/

theorem processDocumentAt_congr (jsonValid : List UInt8 → Bool) (reg : PtrRegistry)
    (h h' : Heap) (p : Ptr) (hp : h p = h' p) :
    processDocumentAt jsonValid reg h p = processDocumentAt jsonValid reg h' p := by
  simp only [processDocumentAt, validateDocumentAt, unpackDocumentAt, hp]

theorem childrenAt_eq_of (jsonValid : List UInt8 → Bool) (reg : PtrRegistry)
    (h h' : Heap) (p : Ptr)
    (hp : processDocumentAt jsonValid reg h p = processDocumentAt jsonValid reg h' p) :
    childrenAt jsonValid reg h p = childrenAt jsonValid reg h' p ∧
      isLeafAt jsonValid reg h p = isLeafAt jsonValid reg h' p := by
  simp only [childrenAt, isLeafAt, hp, and_self]

theorem ProcessStepAt_nil (jsonValid : List UInt8 → Bool) (reg : PtrRegistry)
    (i : Ptr) (s : PtrState) (hq : s.docsToUnpack = []) :
    ProcessStepAt jsonValid reg i s = s := by
  simp [ProcessStepAt, hq]

theorem ProcessStepAt_cons (jsonValid : List UInt8 → Bool) (reg : PtrRegistry)
    (i : Ptr) (s : PtrState) (dd : Ptr) (rest : List Ptr)
    (hq : s.docsToUnpack = dd :: rest) :
    ProcessStepAt jsonValid reg i s =
      { heap := if isLeafAt jsonValid reg s.heap dd then overwrite s.heap dd i else s.heap,
        docsToUnpack := rest ++ childrenAt jsonValid reg s.heap dd,
        finalDocs := s.finalDocs ++ if isLeafAt jsonValid reg s.heap dd then [dd] else [] } := by
  obtain ⟨h, q, f⟩ := s
  simp only at hq
  subst hq
  cases hp : processDocumentAt jsonValid reg h dd with
  | error e =>
    have hc : childrenAt jsonValid reg h dd = [] := by simp [childrenAt, hp]
    have hl : isLeafAt jsonValid reg h dd = false := by simp [isLeafAt, hp]
    simp [ProcessStepAt, hp, hc, hl]
  | ok ds =>
    cases ds with
    | nil =>
      have hc : childrenAt jsonValid reg h dd = [] := by simp [childrenAt, hp]
      have hl : isLeafAt jsonValid reg h dd = true := by simp [isLeafAt, hp]
      simp [ProcessStepAt, hp, hc, hl]
    | cons c cs =>
      have hc : childrenAt jsonValid reg h dd = c :: cs := by simp [childrenAt, hp]
      have hl : isLeafAt jsonValid reg h dd = false := by simp [isLeafAt, hp]
      simp [ProcessStepAt, hp, hc, hl]

theorem iterate_ProcessStepAt_nil (jsonValid : List UInt8 → Bool) (reg : PtrRegistry)
    (i : Ptr) (s : PtrState) (hq : s.docsToUnpack = []) (n : Nat) :
    (ProcessStepAt jsonValid reg i)^[n] s = s :=
  Function.iterate_fixed (ProcessStepAt_nil jsonValid reg i s hq) n

theorem ProcessLoopAt_nil (jsonValid : List UInt8 → Bool) (reg : PtrRegistry)
    (i : Ptr) (fuel : Nat) (s : PtrState) (hq : s.docsToUnpack = []) :
    ProcessLoopAt jsonValid reg i fuel s = some s := by
  cases fuel <;> simp [ProcessLoopAt, hq]

theorem ProcessLoopAt_succ_cons (jsonValid : List UInt8 → Bool) (reg : PtrRegistry)
    (i : Ptr) (fuel : Nat) (s : PtrState) (hq : s.docsToUnpack ≠ []) :
    ProcessLoopAt jsonValid reg i (fuel + 1) s =
      ProcessLoopAt jsonValid reg i fuel (ProcessStepAt jsonValid reg i s) := by
  have : 0 < s.docsToUnpack.length := List.length_pos.mpr hq
  simp [ProcessLoopAt, this]

theorem ProcessLoopAt_zero_cons (jsonValid : List UInt8 → Bool) (reg : PtrRegistry)
    (i : Ptr) (s : PtrState) (hq : s.docsToUnpack ≠ []) :
    ProcessLoopAt jsonValid reg i 0 s = none := by
  have : 0 < s.docsToUnpack.length := List.length_pos.mpr hq
  simp [ProcessLoopAt, this]

theorem ProcessLoopAt_of_iterate_nil (jsonValid : List UInt8 → Bool) (reg : PtrRegistry)
    (i : Ptr) :
    ∀ (n : Nat) (s : PtrState),
      ((ProcessStepAt jsonValid reg i)^[n] s).docsToUnpack = [] →
      ProcessLoopAt jsonValid reg i n s = some ((ProcessStepAt jsonValid reg i)^[n] s) := by
  intro n
  induction n with
  | zero =>
    intro s h
    exact ProcessLoopAt_nil _ _ _ _ _ h
  | succ n ih =>
    intro s h
    by_cases hq : s.docsToUnpack = []
    · rw [iterate_ProcessStepAt_nil _ _ _ _ hq, ProcessLoopAt_nil _ _ _ _ _ hq]
    · rw [Function.iterate_succ_apply] at h ⊢
      rw [ProcessLoopAt_succ_cons _ _ _ _ _ hq]
      exact ih _ h

theorem ProcessLoopAt_of_iterate_cons (jsonValid : List UInt8 → Bool) (reg : PtrRegistry)
    (i : Ptr) :
    ∀ (n : Nat) (s : PtrState),
      ((ProcessStepAt jsonValid reg i)^[n] s).docsToUnpack ≠ [] →
      ProcessLoopAt jsonValid reg i n s = none := by
  intro n
  induction n with
  | zero =>
    intro s h
    exact ProcessLoopAt_zero_cons _ _ _ _ h
  | succ n ih =>
    intro s h
    by_cases hq : s.docsToUnpack = []
    · rw [iterate_ProcessStepAt_nil _ _ _ _ hq] at h
      exact absurd hq h
    · rw [Function.iterate_succ_apply] at h
      rw [ProcessLoopAt_succ_cons _ _ _ _ _ hq]
      exact ih _ h

theorem overwrite_self (h : Heap) (dd i : Ptr) :
    overwrite h dd i dd = emit (h i) (h dd) := by
  simp [overwrite, emit]

theorem overwrite_of_ne (h : Heap) (dd i p : Ptr) (hp : p ≠ dd) :
    overwrite h dd i p = h p := by
  simp [overwrite, hp]

theorem emit_emit (a b d : Document) : emit a (emit b d) = emit a d := rfl

theorem emit_congr (a b d : Document) (hab : a.SourceInformation = b.SourceInformation) :
    emit a d = emit b d := by
  simp [emit, hab]

/-- One iteration keeps the memory equal to the memory of the call up to the
provenance of the documents in `finalDocs`. -/
theorem OnlyEmittedWritten_step (jsonValid : List UInt8 → Bool) (reg : PtrRegistry)
    (h : Heap) (i : Ptr) (s : PtrState) (hs : OnlyEmittedWritten h i s) :
    OnlyEmittedWritten h i (ProcessStepAt jsonValid reg i s) := by
  cases hq : s.docsToUnpack with
  | nil => rw [ProcessStepAt_nil _ _ _ _ hq]; exact hs
  | cons dd rest =>
    rw [ProcessStepAt_cons _ _ _ _ _ _ hq]
    have hroot : (s.heap i).SourceInformation = (h i).SourceInformation := by
      by_cases hi : i ∈ s.finalDocs
      · rw [(hs i).1 hi, overwrite_self]; rfl
      · rw [(hs i).2 hi]
    have hdd : emit (s.heap i) (s.heap dd) = emit (h i) (h dd) := by
      rw [emit_congr _ _ _ hroot]
      by_cases hd : dd ∈ s.finalDocs
      · rw [(hs dd).1 hd, overwrite_self, emit_emit]
      · rw [(hs dd).2 hd]
    by_cases hl : isLeafAt jsonValid reg s.heap dd = true
    · simp only [hl, if_true]
      intro q
      dsimp only
      by_cases hp : q = dd
      · rw [hp]
        refine ⟨fun _ => ?_, fun hn => absurd (by simp) hn⟩
        rw [overwrite_self, overwrite_self, hdd]
      · rw [overwrite_of_ne _ _ _ _ hp]
        constructor
        · intro hm
          rcases List.mem_append.mp hm with hm | hm
          · exact (hs q).1 hm
          · exact absurd (by simpa using hm) hp
        · intro hn
          exact (hs q).2 fun hm => hn (List.mem_append.mpr (Or.inl hm))
    · simp only [hl, Bool.false_eq_true, if_false, List.append_nil]
      exact hs

theorem OnlyEmittedWritten_iterate (jsonValid : List UInt8 → Bool) (reg : PtrRegistry)
    (h : Heap) (i : Ptr) (n : Nat) :
    OnlyEmittedWritten h i ((ProcessStepAt jsonValid reg i)^[n] (initStateAt h i)) := by
  induction n with
  | zero =>
    intro p
    simp [initStateAt]
  | succ n ih =>
    rw [Function.iterate_succ_apply']
    exact OnlyEmittedWritten_step jsonValid reg h i _ ih

/-! ## The frozen run: level-by-level description -/

theorem expandAt_nil (jsonValid : List UInt8 → Bool) (reg : PtrRegistry) (h : Heap) :
    expandAt jsonValid reg h [] = [] := rfl

theorem expandAt_cons (jsonValid : List UInt8 → Bool) (reg : PtrRegistry) (h : Heap)
    (d : Ptr) (l : List Ptr) :
    expandAt jsonValid reg h (d :: l) =
      childrenAt jsonValid reg h d ++ expandAt jsonValid reg h l := by
  simp [expandAt]

theorem expandAt_append (jsonValid : List UInt8 → Bool) (reg : PtrRegistry) (h : Heap)
    (l₁ l₂ : List Ptr) :
    expandAt jsonValid reg h (l₁ ++ l₂) =
      expandAt jsonValid reg h l₁ ++ expandAt jsonValid reg h l₂ := by
  simp [expandAt]

theorem childListsAt_flatten (jsonValid : List UInt8 → Bool) (reg : PtrRegistry)
    (h : Heap) (l : List Ptr) :
    (childListsAt jsonValid reg h l).flatten = expandAt jsonValid reg h l := by
  induction l with
  | nil => simp [childListsAt, expandAt]
  | cons d l ih =>
    have ih' : (List.filterMap (fun d =>
        match processDocumentAt jsonValid reg h d with
        | .ok (c :: cs) => some (c :: cs)
        | _ => none) l).flatten = expandAt jsonValid reg h l := ih
    simp only [childListsAt, expandAt, List.flatMap_cons, List.filterMap_cons]
    cases hp : processDocumentAt jsonValid reg h d with
    | error e => simpa [childrenAt, hp, expandAt] using ih'
    | ok ds =>
      cases ds with
      | nil => simpa [childrenAt, hp, expandAt] using ih'
      | cons c cs => simpa [childrenAt, hp, expandAt] using ih'

theorem generationAt_succ (jsonValid : List UInt8 → Bool) (reg : PtrRegistry)
    (h : Heap) (i : Ptr) (k : Nat) :
    generationAt jsonValid reg h i (k + 1) =
      expandAt jsonValid reg h (generationAt jsonValid reg h i k) := by
  simp only [generationAt]
  exact childListsAt_flatten _ _ _ _

theorem generationAt_eq_iterate (jsonValid : List UInt8 → Bool) (reg : PtrRegistry)
    (h : Heap) (i : Ptr) (k : Nat) :
    generationAt jsonValid reg h i k = (expandAt jsonValid reg h)^[k] [i] := by
  induction k with
  | zero => rfl
  | succ k ih => rw [generationAt_succ, ih, Function.iterate_succ_apply']

theorem frozenNext_nil (jsonValid : List UInt8 → Bool) (reg : PtrRegistry) (h : Heap) :
    frozenNext jsonValid reg h [] = [] := rfl

theorem iterate_frozenNext_nil (jsonValid : List UInt8 → Bool) (reg : PtrRegistry)
    (h : Heap) (n : Nat) : (frozenNext jsonValid reg h)^[n] [] = [] :=
  Function.iterate_fixed (frozenNext_nil jsonValid reg h) n

theorem frozenDequeued_nil (jsonValid : List UInt8 → Bool) (reg : PtrRegistry)
    (h : Heap) (n : Nat) : frozenDequeued jsonValid reg h n [] = [] := by
  cases n <;> simp [frozenDequeued]

theorem frozenDequeued_add (jsonValid : List UInt8 → Bool) (reg : PtrRegistry)
    (h : Heap) (b : Nat) :
    ∀ (a : Nat) (q : List Ptr),
      frozenDequeued jsonValid reg h (a + b) q =
        frozenDequeued jsonValid reg h a q ++
          frozenDequeued jsonValid reg h b ((frozenNext jsonValid reg h)^[a] q) := by
  intro a
  induction a with
  | zero => intro q; simp [frozenDequeued]
  | succ a ih =>
    intro q
    cases q with
    | nil => simp [frozenDequeued_nil, iterate_frozenNext_nil]
    | cons dd rest =>
      rw [Nat.succ_add, Function.iterate_succ_apply]
      simp only [frozenDequeued, List.cons_append, List.cons.injEq, true_and]
      exact ih _

/-- Running the frozen loop over the rest `l` of a level, with the part `acc` of
the next level already enqueued behind it. -/
theorem iterate_frozenNext_level (jsonValid : List UInt8 → Bool) (reg : PtrRegistry)
    (h : Heap) :
    ∀ (l acc : List Ptr),
      (frozenNext jsonValid reg h)^[l.length] (l ++ acc) =
        acc ++ expandAt jsonValid reg h l := by
  intro l
  induction l with
  | nil => intro acc; simp [expandAt]
  | cons d l ih =>
    intro acc
    rw [List.length_cons, Function.iterate_succ_apply, List.cons_append]
    simp only [frozenNext]
    rw [List.append_assoc, ih, expandAt_cons, List.append_assoc]

theorem frozenDequeued_level (jsonValid : List UInt8 → Bool) (reg : PtrRegistry)
    (h : Heap) :
    ∀ (l acc : List Ptr), frozenDequeued jsonValid reg h l.length (l ++ acc) = l := by
  intro l
  induction l with
  | nil => intro acc; simp [frozenDequeued]
  | cons d l ih =>
    intro acc
    simp only [List.length_cons, List.cons_append, frozenDequeued, frozenNext,
      List.cons.injEq, true_and]
    rw [List.append_assoc]
    exact ih _

theorem nodesAt_length_succ (jsonValid : List UInt8 → Bool) (reg : PtrRegistry)
    (h : Heap) (i : Ptr) (K : Nat) :
    (nodesAt jsonValid reg h i (K + 1)).length =
      (generationAt jsonValid reg h i K).length + (nodesAt jsonValid reg h i K).length := by
  simp [nodesAt, Nat.add_comm]

/-- After as many iterations as there are nodes in the generations below `K`,
the worklist of the frozen run is generation `K`. -/
theorem iterate_frozenNext_levels (jsonValid : List UInt8 → Bool) (reg : PtrRegistry)
    (h : Heap) (i : Ptr) (K : Nat) :
    (frozenNext jsonValid reg h)^[(nodesAt jsonValid reg h i K).length] [i] =
      generationAt jsonValid reg h i K := by
  induction K with
  | zero => rfl
  | succ K ih =>
    rw [nodesAt_length_succ, Function.iterate_add_apply, ih]
    have h1 := iterate_frozenNext_level jsonValid reg h (generationAt jsonValid reg h i K) []
    rw [List.append_nil] at h1
    rw [h1, generationAt_succ]
    rfl

theorem frozenDequeued_levels (jsonValid : List UInt8 → Bool) (reg : PtrRegistry)
    (h : Heap) (i : Ptr) (K : Nat) :
    frozenDequeued jsonValid reg h (nodesAt jsonValid reg h i K).length [i] =
      nodesAt jsonValid reg h i K := by
  induction K with
  | zero => rfl
  | succ K ih =>
    rw [nodesAt_length_succ, Nat.add_comm, frozenDequeued_add, ih, iterate_frozenNext_levels]
    have h1 := frozenDequeued_level jsonValid reg h (generationAt jsonValid reg h i K) []
    rw [List.append_nil] at h1
    rw [h1]
    rfl

theorem levelOrderAt_eq_filter (jsonValid : List UInt8 → Bool) (reg : PtrRegistry)
    (h : Heap) (i : Ptr) (K : Nat) :
    levelOrderAt jsonValid reg h i K =
      (nodesAt jsonValid reg h i K).filter (isLeafAt jsonValid reg h) := by
  induction K with
  | zero => rfl
  | succ K ih => simp [levelOrderAt, nodesAt, ih]

/-- Once a generation is empty the frozen run has dequeued exactly the nodes of
the tree, and before that a prefix of them. -/
theorem frozenDequeued_prefix (jsonValid : List UInt8 → Bool) (reg : PtrRegistry)
    (h : Heap) (i : Ptr) (K : Nat) (hK : generationAt jsonValid reg h i K = []) (n : Nat) :
    ∃ t, nodesAt jsonValid reg h i K = frozenDequeued jsonValid reg h n [i] ++ t ∧
      ((nodesAt jsonValid reg h i K).length ≤ n → t = []) := by
  by_cases hn : n ≤ (nodesAt jsonValid reg h i K).length
  · obtain ⟨m, hm⟩ : ∃ m, (nodesAt jsonValid reg h i K).length = n + m :=
      ⟨(nodesAt jsonValid reg h i K).length - n, by omega⟩
    have h1 := frozenDequeued_levels jsonValid reg h i K
    rw [hm, frozenDequeued_add] at h1
    refine ⟨_, h1.symm, ?_⟩
    intro hle
    have hm0 : m = 0 := by omega
    subst hm0
    simp [frozenDequeued]
  · obtain ⟨m, hm⟩ : ∃ m, n = (nodesAt jsonValid reg h i K).length + m :=
      ⟨n - (nodesAt jsonValid reg h i K).length, by omega⟩
    refine ⟨[], ?_, fun _ => rfl⟩
    rw [hm, frozenDequeued_add, frozenDequeued_levels, iterate_frozenNext_levels, hK,
      frozenDequeued_nil, List.append_nil, List.append_nil]

theorem frozen_ne_nil_of_dequeued_length (jsonValid : List UInt8 → Bool)
    (reg : PtrRegistry) (h : Heap) :
    ∀ (n : Nat) (q : List Ptr), (frozenDequeued jsonValid reg h n q).length = n →
      ∀ m, m < n → (frozenNext jsonValid reg h)^[m] q ≠ [] := by
  intro n
  induction n with
  | zero => intro q _ m hm; omega
  | succ n ih =>
    intro q hlen m hm
    cases q with
    | nil => simp [frozenDequeued] at hlen
    | cons dd rest =>
      simp only [frozenDequeued, List.length_cons, Nat.add_right_cancel_iff] at hlen
      cases m with
      | zero => simp
      | succ m =>
        rw [Function.iterate_succ_apply]
        exact ih _ hlen m (by omega)

/-! ## The loop on objects follows the frozen run while no outcome is affected -/

theorem frozenDequeued_one_cons (jsonValid : List UInt8 → Bool) (reg : PtrRegistry)
    (h : Heap) (dd : Ptr) (rest : List Ptr) :
    frozenDequeued jsonValid reg h 1 (dd :: rest) = [dd] := by
  simp [frozenDequeued]

/-- One iteration on objects, from a state whose memory gives every document
that is still to be dequeued the outcome it has in the memory `h` of the call. -/
theorem ProcessStepAt_frozen (jsonValid : List UInt8 → Bool) (reg : PtrRegistry)
    (h : Heap) (i : Ptr) (s : PtrState) (D : List Ptr)
    (hJ : OnlyEmittedWritten h i s)
    (hF : s.finalDocs = D.filter (isLeafAt jsonValid reg h))
    (hI : ∀ p, s.heap p = h p ∨ Unaffected jsonValid reg h i p ∨
      ∀ m, p ∉ frozenDequeued jsonValid reg h m s.docsToUnpack)
    (hq : ∀ dd rest, s.docsToUnpack = dd :: rest → isLeafAt jsonValid reg h dd = true →
      (∃ m, dd ∈ frozenDequeued jsonValid reg h m
        (frozenNext jsonValid reg h s.docsToUnpack)) →
      Unaffected jsonValid reg h i dd) :
    (ProcessStepAt jsonValid reg i s).docsToUnpack =
        frozenNext jsonValid reg h s.docsToUnpack ∧
    (ProcessStepAt jsonValid reg i s).finalDocs =
      (D ++ frozenDequeued jsonValid reg h 1 s.docsToUnpack).filter
        (isLeafAt jsonValid reg h) ∧
    (∀ p, (ProcessStepAt jsonValid reg i s).heap p = h p ∨
      Unaffected jsonValid reg h i p ∨
      ∀ m, p ∉ frozenDequeued jsonValid reg h m
        (ProcessStepAt jsonValid reg i s).docsToUnpack) := by
  cases hq0 : s.docsToUnpack with
  | nil =>
    rw [ProcessStepAt_nil _ _ _ _ hq0, hq0]
    refine ⟨rfl, by simpa [frozenDequeued] using hF, ?_⟩
    intro p
    rw [hq0] at hI
    exact hI p
  | cons dd rest =>
    have hout : processDocumentAt jsonValid reg s.heap dd =
        processDocumentAt jsonValid reg h dd := by
      rcases hI dd with h1 | h2 | h3
      · exact processDocumentAt_congr _ _ _ _ _ h1
      · by_cases hd : dd ∈ s.finalDocs
        · rw [processDocumentAt_congr _ _ s.heap (overwrite h dd i) dd ((hJ dd).1 hd)]
          exact h2
        · exact processDocumentAt_congr _ _ _ _ _ ((hJ dd).2 hd)
      · exact absurd (by rw [hq0, frozenDequeued_one_cons]; simp) (h3 1)
    obtain ⟨hc, hl⟩ := childrenAt_eq_of jsonValid reg s.heap h dd hout
    have hnever : ∀ p, (∀ m, p ∉ frozenDequeued jsonValid reg h m (dd :: rest)) →
        ∀ m, p ∉ frozenDequeued jsonValid reg h m
          (rest ++ childrenAt jsonValid reg h dd) := by
      intro p hp m hm
      apply hp (m + 1)
      simp only [frozenDequeued, frozenNext, List.mem_cons]
      exact Or.inr hm
    rw [ProcessStepAt_cons _ _ _ _ _ _ hq0, hc, hl]
    refine ⟨rfl, ?_, ?_⟩
    · rw [frozenDequeued_one_cons, List.filter_append, hF]
      by_cases hleaf : isLeafAt jsonValid reg h dd = true
      · simp [hleaf, List.filter_cons]
      · simp [hleaf, List.filter_cons]
    · intro p
      dsimp only
      by_cases hwr : isLeafAt jsonValid reg h dd = true ∧ p = dd
      · obtain ⟨hleaf, rfl⟩ := hwr
        by_cases hex : ∃ m, p ∈ frozenDequeued jsonValid reg h m
            (rest ++ childrenAt jsonValid reg h p)
        · refine Or.inr (Or.inl (hq p rest hq0 hleaf ?_))
          rw [hq0]
          exact hex
        · exact Or.inr (Or.inr fun m hm => hex ⟨m, hm⟩)
      · have hkeep : (if isLeafAt jsonValid reg h dd = true then overwrite s.heap dd i
            else s.heap) p = s.heap p := by
          by_cases hleaf : isLeafAt jsonValid reg h dd = true
          · have hp : p ≠ dd := fun e => hwr ⟨hleaf, e⟩
            simp [hleaf, overwrite_of_ne _ _ _ _ hp]
          · simp [hleaf]
        rw [hkeep]
        rcases hI p with h1 | h2 | h3
        · exact Or.inl h1
        · exact Or.inr (Or.inl h2)
        · rw [hq0] at h3
          exact Or.inr (Or.inr (hnever p h3))

/-- The run on objects follows the frozen run as long as every terminal document
that is dequeued again later is unaffected by the provenance overwrite. -/
theorem iterate_ProcessStepAt_frozen (jsonValid : List UInt8 → Bool) (reg : PtrRegistry)
    (h : Heap) (i : Ptr)
    (hrun : ∀ n dd rest, (frozenNext jsonValid reg h)^[n] [i] = dd :: rest →
      isLeafAt jsonValid reg h dd = true →
      (∃ m, dd ∈ frozenDequeued jsonValid reg h m
        ((frozenNext jsonValid reg h)^[n + 1] [i])) →
      Unaffected jsonValid reg h i dd) (n : Nat) :
    ((ProcessStepAt jsonValid reg i)^[n] (initStateAt h i)).docsToUnpack =
        (frozenNext jsonValid reg h)^[n] [i] ∧
    ((ProcessStepAt jsonValid reg i)^[n] (initStateAt h i)).finalDocs =
      (frozenDequeued jsonValid reg h n [i]).filter (isLeafAt jsonValid reg h) ∧
    (∀ p, ((ProcessStepAt jsonValid reg i)^[n] (initStateAt h i)).heap p = h p ∨
      Unaffected jsonValid reg h i p ∨
      ∀ m, p ∉ frozenDequeued jsonValid reg h m
        ((ProcessStepAt jsonValid reg i)^[n] (initStateAt h i)).docsToUnpack) := by
  induction n with
  | zero =>
    refine ⟨rfl, rfl, fun p => Or.inl rfl⟩
  | succ n ih =>
    obtain ⟨h1, h2, h3⟩ := ih
    have hstep := ProcessStepAt_frozen jsonValid reg h i
      ((ProcessStepAt jsonValid reg i)^[n] (initStateAt h i))
      (frozenDequeued jsonValid reg h n [i])
      (OnlyEmittedWritten_iterate jsonValid reg h i n) h2 h3
      (by
        intro dd rest hq hleaf hex
        rw [h1] at hq hex
        refine hrun n dd rest hq hleaf ?_
        rw [Function.iterate_succ_apply']
        exact hex)
    rw [h1] at hstep
    rw [Function.iterate_succ_apply', Function.iterate_succ_apply', frozenDequeued_add]
    exact hstep

/-- In a finite tree, a terminal document that the frozen run dequeues twice
occurs at two nodes of the tree. -/
theorem unaffected_of_count (jsonValid : List UInt8 → Bool) (reg : PtrRegistry)
    (h : Heap) (i : Ptr) (K : Nat) (hK : generationAt jsonValid reg h i K = [])
    (hst : ∀ p ∈ nodesAt jsonValid reg h i K, isLeafAt jsonValid reg h p = true →
      2 ≤ (nodesAt jsonValid reg h i K).count p → Unaffected jsonValid reg h i p) :
    ∀ n dd rest, (frozenNext jsonValid reg h)^[n] [i] = dd :: rest →
      isLeafAt jsonValid reg h dd = true →
      (∃ m, dd ∈ frozenDequeued jsonValid reg h m
        ((frozenNext jsonValid reg h)^[n + 1] [i])) →
      Unaffected jsonValid reg h i dd := by
  intro n dd rest hq hleaf ⟨m, hm⟩
  obtain ⟨t, ht, _⟩ := frozenDequeued_prefix jsonValid reg h i K hK (n + 1 + m)
  rw [frozenDequeued_add, frozenDequeued_add, hq, frozenDequeued_one_cons] at ht
  have hcount : 2 ≤ (nodesAt jsonValid reg h i K).count dd := by
    rw [ht]
    simp only [List.count_append, List.count_singleton_self]
    have := List.one_le_count_iff.mpr hm
    omega
  have hmem : dd ∈ nodesAt jsonValid reg h i K := by
    rw [ht]
    simp
  exact hst dd hmem hleaf hcount

/-! ## Finite trees -/

theorem IsChildAt_iff (jsonValid : List UInt8 → Bool) (reg : PtrRegistry) (h : Heap)
    (c d : Ptr) : IsChildAt jsonValid reg h c d ↔ c ∈ childrenAt jsonValid reg h d := by
  unfold IsChildAt childrenAt
  cases hp : processDocumentAt jsonValid reg h d with
  | error e => simp
  | ok ds => simp

theorem iterate_expandAt_nil (jsonValid : List UInt8 → Bool) (reg : PtrRegistry)
    (h : Heap) (k : Nat) : (expandAt jsonValid reg h)^[k] [] = [] :=
  Function.iterate_fixed (expandAt_nil jsonValid reg h) k

theorem iterate_expandAt_append (jsonValid : List UInt8 → Bool) (reg : PtrRegistry)
    (h : Heap) :
    ∀ (k : Nat) (l₁ l₂ : List Ptr),
      (expandAt jsonValid reg h)^[k] (l₁ ++ l₂) =
        (expandAt jsonValid reg h)^[k] l₁ ++ (expandAt jsonValid reg h)^[k] l₂ := by
  intro k
  induction k with
  | zero => intro l₁ l₂; rfl
  | succ k ih =>
    intro l₁ l₂
    simp only [Function.iterate_succ_apply, expandAt_append, ih]

theorem iterate_expandAt_nil_mono (jsonValid : List UInt8 → Bool) (reg : PtrRegistry)
    (h : Heap) (k m : Nat) (l : List Ptr) (hl : (expandAt jsonValid reg h)^[k] l = [])
    (hkm : k ≤ m) : (expandAt jsonValid reg h)^[m] l = [] := by
  obtain ⟨j, rfl⟩ : ∃ j, m = j + k := ⟨m - k, by omega⟩
  rw [Function.iterate_add_apply, hl, iterate_expandAt_nil]

theorem iterate_expandAt_singleton_succ (jsonValid : List UInt8 → Bool)
    (reg : PtrRegistry) (h : Heap) (k : Nat) (d : Ptr) :
    (expandAt jsonValid reg h)^[k + 1] [d] =
      (expandAt jsonValid reg h)^[k] (childrenAt jsonValid reg h d) := by
  rw [Function.iterate_succ_apply, expandAt_cons, expandAt_nil, List.append_nil]

theorem exists_depth_of_forall (jsonValid : List UInt8 → Bool) (reg : PtrRegistry)
    (h : Heap) :
    ∀ l : List Ptr, (∀ c ∈ l, ∃ K, (expandAt jsonValid reg h)^[K] [c] = []) →
      ∃ K, (expandAt jsonValid reg h)^[K] l = [] := by
  intro l
  induction l with
  | nil => intro _; exact ⟨0, rfl⟩
  | cons c l ih =>
    intro hall
    obtain ⟨K₁, h₁⟩ := hall c (List.mem_cons_self _ _)
    obtain ⟨K₂, h₂⟩ := ih fun x hx => hall x (List.mem_cons_of_mem _ hx)
    refine ⟨max K₁ K₂, ?_⟩
    have e : c :: l = [c] ++ l := rfl
    rw [e, iterate_expandAt_append,
      iterate_expandAt_nil_mono jsonValid reg h K₁ _ _ h₁ (Nat.le_max_left _ _),
      iterate_expandAt_nil_mono jsonValid reg h K₂ _ _ h₂ (Nat.le_max_right _ _)]
    rfl

/-- A finite expansion tree has an empty generation. -/
theorem exists_generation_nil_of_acc (jsonValid : List UInt8 → Bool) (reg : PtrRegistry)
    (h : Heap) (d : Ptr) (hacc : Acc (IsChildAt jsonValid reg h) d) :
    ∃ K, (expandAt jsonValid reg h)^[K] [d] = [] := by
  induction hacc with
  | intro d _ ih =>
    obtain ⟨K, hK⟩ := exists_depth_of_forall jsonValid reg h (childrenAt jsonValid reg h d)
      fun c hc => ih c ((IsChildAt_iff _ _ _ _ _).mpr hc)
    exact ⟨K + 1, by rw [iterate_expandAt_singleton_succ, hK]⟩

/-- An empty generation means that the expansion tree is finite. -/
theorem acc_of_iterate_expandAt_nil (jsonValid : List UInt8 → Bool) (reg : PtrRegistry)
    (h : Heap) :
    ∀ (K : Nat) (d : Ptr), (expandAt jsonValid reg h)^[K] [d] = [] →
      Acc (IsChildAt jsonValid reg h) d := by
  intro K
  induction K with
  | zero => intro d hd; simp at hd
  | succ K ih =>
    intro d hd
    rw [iterate_expandAt_singleton_succ] at hd
    refine Acc.intro d fun c hc => ih c ?_
    obtain ⟨l₁, l₂, hl⟩ := List.append_of_mem ((IsChildAt_iff _ _ _ _ _).mp hc)
    have e : l₁ ++ c :: l₂ = l₁ ++ ([c] ++ l₂) := rfl
    rw [hl, e, iterate_expandAt_append, iterate_expandAt_append] at hd
    exact (List.append_eq_nil.mp (List.append_eq_nil.mp hd).2).1

/-! ## Runs that return -/

theorem ProcessAt_eq_some_iff (jsonValid : List UInt8 → Bool) (reg : PtrRegistry)
    (h : Heap) (i : Ptr) (fuel : Nat) (res : List Ptr) (err : Option Error) (hf : Heap) :
    ProcessAt jsonValid reg h i fuel = some ((res, err), hf) ↔
      ((ProcessStepAt jsonValid reg i)^[fuel] (initStateAt h i)).docsToUnpack = [] ∧
      res = ((ProcessStepAt jsonValid reg i)^[fuel] (initStateAt h i)).finalDocs ∧
      err = none ∧
      hf = ((ProcessStepAt jsonValid reg i)^[fuel] (initStateAt h i)).heap := by
  unfold ProcessAt
  by_cases hq : ((ProcessStepAt jsonValid reg i)^[fuel] (initStateAt h i)).docsToUnpack = []
  · rw [ProcessLoopAt_of_iterate_nil _ _ _ _ _ hq]
    simp only [Option.some.injEq, Prod.mk.injEq, hq, true_and]
    constructor
    · rintro ⟨⟨h1, h2⟩, h3⟩; exact ⟨h1.symm, h2.symm, h3.symm⟩
    · rintro ⟨h1, h2, h3⟩; exact ⟨⟨h1.symm, h2.symm⟩, h3.symm⟩
  · rw [ProcessLoopAt_of_iterate_cons _ _ _ _ _ hq]
    simp [hq]

theorem ProcessAt_eq_none_iff (jsonValid : List UInt8 → Bool) (reg : PtrRegistry)
    (h : Heap) (i : Ptr) (fuel : Nat) :
    ProcessAt jsonValid reg h i fuel = none ↔
      ((ProcessStepAt jsonValid reg i)^[fuel] (initStateAt h i)).docsToUnpack ≠ [] := by
  unfold ProcessAt
  by_cases hq : ((ProcessStepAt jsonValid reg i)^[fuel] (initStateAt h i)).docsToUnpack = []
  · rw [ProcessLoopAt_of_iterate_nil _ _ _ _ _ hq]
    simp [hq]
  · rw [ProcessLoopAt_of_iterate_cons _ _ _ _ _ hq]
    simp [hq]

/-- Once the worklist is empty the state does not change any more: every run
that returns, returns the state reached at that point. -/
theorem iterate_ProcessStepAt_of_nil (jsonValid : List UInt8 → Bool) (reg : PtrRegistry)
    (i : Ptr) (s : PtrState) (n m : Nat)
    (hn : ((ProcessStepAt jsonValid reg i)^[n] s).docsToUnpack = [])
    (hm : ((ProcessStepAt jsonValid reg i)^[m] s).docsToUnpack = []) :
    (ProcessStepAt jsonValid reg i)^[m] s = (ProcessStepAt jsonValid reg i)^[n] s := by
  rcases Nat.le_total n m with hle | hle
  · obtain ⟨k, rfl⟩ : ∃ k, m = k + n := ⟨m - n, by omega⟩
    rw [Function.iterate_add_apply, iterate_ProcessStepAt_nil _ _ _ _ hn]
  · obtain ⟨k, rfl⟩ : ∃ k, n = k + m := ⟨n - m, by omega⟩
    rw [Function.iterate_add_apply, iterate_ProcessStepAt_nil _ _ _ _ hm]

/-- The run on objects of a finite tree whose repeated terminal documents are
unaffected by the provenance overwrite. -/
theorem ProcessAt_level_order (jsonValid : List UInt8 → Bool) (reg : PtrRegistry)
    (h : Heap) (i : Ptr) (K : Nat)
    (hK : generationAt jsonValid reg h i K = [])
    (hst : ∀ p ∈ nodesAt jsonValid reg h i K, isLeafAt jsonValid reg h p = true →
      2 ≤ (nodesAt jsonValid reg h i K).count p → Unaffected jsonValid reg h i p)
    (fuel : Nat) (hfuel : (nodesAt jsonValid reg h i K).length ≤ fuel) :
    ∃ hf : Heap,
      ProcessAt jsonValid reg h i fuel =
        some ((levelOrderAt jsonValid reg h i K, none), hf) ∧
      (∀ p ∈ levelOrderAt jsonValid reg h i K,
        hf p = { h p with SourceInformation := (h i).SourceInformation }) ∧
      (∀ p, p ∉ levelOrderAt jsonValid reg h i K → hf p = h p) := by
  obtain ⟨hq, hfin, _⟩ := iterate_ProcessStepAt_frozen jsonValid reg h i
    (unaffected_of_count jsonValid reg h i K hK hst) fuel
  obtain ⟨t, ht, ht0⟩ := frozenDequeued_prefix jsonValid reg h i K hK fuel
  rw [ht0 hfuel, List.append_nil] at ht
  rw [← ht, ← levelOrderAt_eq_filter] at hfin
  have hq0 : ((ProcessStepAt jsonValid reg i)^[fuel] (initStateAt h i)).docsToUnpack = [] := by
    obtain ⟨m, rfl⟩ : ∃ m, fuel = m + (nodesAt jsonValid reg h i K).length :=
      ⟨fuel - (nodesAt jsonValid reg h i K).length, by omega⟩
    rw [hq, Function.iterate_add_apply, iterate_frozenNext_levels, hK,
      iterate_frozenNext_nil]
  have hJ := OnlyEmittedWritten_iterate jsonValid reg h i fuel
  refine ⟨((ProcessStepAt jsonValid reg i)^[fuel] (initStateAt h i)).heap, ?_, ?_, ?_⟩
  · rw [ProcessAt_eq_some_iff]
    exact ⟨hq0, hfin.symm, rfl, rfl⟩
  · intro p hp
    rw [← hfin] at hp
    rw [(hJ p).1 hp, overwrite_self]
    rfl
  · intro p hp
    rw [← hfin] at hp
    exact (hJ p).2 hp

/-! ## Level-order refinement -/

/-- C16, as stated, fails on objects.  The "dup" root unpacks to the same pointer
twice; generation 2 is empty and the level-order reference gives that document
twice.  The loop emits the document at its first dequeue, overwriting its
provenance in place; at the second dequeue the document is read as rewritten,
unpacks to a child, and that child is dropped: every call that returns, returns
the single pointer 1, after four iterations. -/
theorem C16_counterexample :
    generationAt demoJsonValid dupRegistry dupHeap 0 2 = [] ∧
    levelOrderAt demoJsonValid dupRegistry dupHeap 0 2 = [1, 1] ∧
    ProcessAt demoJsonValid dupRegistry dupHeap 0 3 = none ∧
    (ProcessAt demoJsonValid dupRegistry dupHeap 0 4).map
        (fun r => (r.1, r.1.1.map r.2)) = some (([1], none), [mkDoc "picky" "root"]) ∧
    (∀ (fuel : Nat) (res : List Ptr) (err : Option Error) (hf : Heap),
      ProcessAt demoJsonValid dupRegistry dupHeap 0 fuel = some ((res, err), hf) →
      res = [1]) ∧
    ¬ (∀ (jsonValid : List UInt8 → Bool) (reg : PtrRegistry) (h : Heap) (i : Ptr) (K : Nat),
        generationAt jsonValid reg h i K = [] →
        ∃ fuel hf, ProcessAt jsonValid reg h i fuel =
          some ((levelOrderAt jsonValid reg h i K, none), hf)) := by
  have hgen : generationAt demoJsonValid dupRegistry dupHeap 0 2 = [] := by decide
  have hlev : levelOrderAt demoJsonValid dupRegistry dupHeap 0 2 = [1, 1] := by decide
  have h4 : ((ProcessStepAt demoJsonValid dupRegistry 0)^[4]
      (initStateAt dupHeap 0)).docsToUnpack = [] := by decide
  have hres : ∀ (fuel : Nat) (res : List Ptr) (err : Option Error) (hf : Heap),
      ProcessAt demoJsonValid dupRegistry dupHeap 0 fuel = some ((res, err), hf) →
      res = [1] := by
    intro fuel res err hf hrun
    obtain ⟨hq, hr, _, _⟩ := (ProcessAt_eq_some_iff _ _ _ _ _ _ _ _).mp hrun
    rw [hr, iterate_ProcessStepAt_of_nil _ _ _ _ 4 fuel h4 hq]
    decide
  refine ⟨hgen, hlev, ?_, by decide, hres, ?_⟩
  · rw [ProcessAt_eq_none_iff]
    decide
  · intro hall
    obtain ⟨fuel, hf, hrun⟩ := hall demoJsonValid dupRegistry dupHeap 0 2 hgen
    have := hres fuel _ _ _ hrun
    rw [hlev] at this
    exact absurd this (by decide)

/-- C16 (amended): `Process` refines the level-order reference definition whenever
some generation `K` of the root is empty and every terminal document that
occurs at more than one node of the tree gets the same result from
`processDocument` after its provenance is overwritten.  Then, for every fuel
that covers the nodes of the tree, `Process` returns with a nil error exactly
the level-order concatenation of the terminal documents; each of them has its
`SourceInformation` replaced by that of the root, and every other document is
as it was before the call. -/
theorem C16_level_order_refinement (jsonValid : List UInt8 → Bool) (reg : PtrRegistry)
    (h : Heap) (i : Ptr) (K : Nat)
    (hK : generationAt jsonValid reg h i K = [])
    (hst : ∀ p ∈ nodesAt jsonValid reg h i K, isLeafAt jsonValid reg h p = true →
      2 ≤ (nodesAt jsonValid reg h i K).count p → Unaffected jsonValid reg h i p)
    (fuel : Nat) (hfuel : (nodesAt jsonValid reg h i K).length ≤ fuel) :
    ∃ hf : Heap,
      ProcessAt jsonValid reg h i fuel =
        some ((levelOrderAt jsonValid reg h i K, none), hf) ∧
      (∀ p ∈ levelOrderAt jsonValid reg h i K,
        hf p = { h p with SourceInformation := (h i).SourceInformation }) ∧
      (∀ p, p ∉ levelOrderAt jsonValid reg h i K → hf p = h p) :=
  ProcessAt_level_order jsonValid reg h i K hK hst fuel hfuel

/-- The example tree has five distinct document objects: the result is B, A1,
A2 with the provenance of the root.  With `twinRegistry` the same terminal
document is queued twice, its outcome does not depend on the provenance, and
it is returned twice. -/
theorem C16_witness :
    generationAt demoJsonValid treePtrRegistry treeHeap 0 3 = [] ∧
    levelOrderAt demoJsonValid treePtrRegistry treeHeap 0 3 = [2, 3, 4] ∧
    (∃ hf : Heap,
      ProcessAt demoJsonValid treePtrRegistry treeHeap 0 5 =
        some ((levelOrderAt demoJsonValid treePtrRegistry treeHeap 0 3, none), hf) ∧
      (∀ p ∈ levelOrderAt demoJsonValid treePtrRegistry treeHeap 0 3,
        hf p = { treeHeap p with SourceInformation := (treeHeap 0).SourceInformation }) ∧
      (∀ p, p ∉ levelOrderAt demoJsonValid treePtrRegistry treeHeap 0 3 →
        hf p = treeHeap p)) ∧
    levelOrderAt demoJsonValid twinRegistry dupHeap 0 2 = [1, 1] ∧
    (∃ hf : Heap,
      ProcessAt demoJsonValid twinRegistry dupHeap 0 3 =
        some ((levelOrderAt demoJsonValid twinRegistry dupHeap 0 2, none), hf) ∧
      (∀ p ∈ levelOrderAt demoJsonValid twinRegistry dupHeap 0 2,
        hf p = { dupHeap p with SourceInformation := (dupHeap 0).SourceInformation }) ∧
      (∀ p, p ∉ levelOrderAt demoJsonValid twinRegistry dupHeap 0 2 →
        hf p = dupHeap p)) :=
  have htree : nodesAt demoJsonValid treePtrRegistry treeHeap 0 3 = [0, 1, 2, 3, 4] := by
    decide
  have htwin : nodesAt demoJsonValid twinRegistry dupHeap 0 2 = [0, 1, 1] := by decide
  ⟨by decide, by decide,
    C16_level_order_refinement demoJsonValid treePtrRegistry treeHeap 0 3 (by decide)
      (by
        rw [htree]
        intro p hp _ hc
        exact absurd hc ((by decide :
          ∀ q ∈ [0, 1, 2, 3, 4], ¬ 2 ≤ List.count q [0, 1, 2, 3, 4]) p hp))
      5 (by decide),
    by decide,
    C16_level_order_refinement demoJsonValid twinRegistry dupHeap 0 2 (by decide)
      (by
        rw [htwin]
        intro p hp _ hc
        have hp1 : p = 1 := by
          simp only [List.mem_cons, List.mem_singleton, List.not_mem_nil, or_false] at hp
          rcases hp with rfl | rfl | rfl
          · exact absurd hc (by decide)
          · rfl
          · rfl
        subst hp1
        exact (rfl : processDocumentAt demoJsonValid twinRegistry (overwrite dupHeap 1 0) 1 =
          processDocumentAt demoJsonValid twinRegistry dupHeap 1))
      3 (by decide)⟩

/-! ## Termination on finite trees -/

theorem dequeuedAt_succ_last (jsonValid : List UInt8 → Bool) (reg : PtrRegistry)
    (i : Ptr) :
    ∀ (n : Nat) (s : PtrState),
      dequeuedAt jsonValid reg i (n + 1) s =
        dequeuedAt jsonValid reg i n s ++
          ((ProcessStepAt jsonValid reg i)^[n] s).docsToUnpack.take 1 := by
  intro n
  induction n with
  | zero =>
    intro s
    cases hq : s.docsToUnpack <;> simp [dequeuedAt, hq]
  | succ n ih =>
    intro s
    cases hq : s.docsToUnpack with
    | nil =>
      rw [iterate_ProcessStepAt_nil _ _ _ _ hq]
      simp [dequeuedAt, hq]
    | cons dd rest =>
      rw [Function.iterate_succ_apply]
      have h1 : dequeuedAt jsonValid reg i (n + 1 + 1) s =
          dd :: dequeuedAt jsonValid reg i (n + 1) (ProcessStepAt jsonValid reg i s) := by
        rw [dequeuedAt, hq]
      have h2 : dequeuedAt jsonValid reg i (n + 1) s =
          dd :: dequeuedAt jsonValid reg i n (ProcessStepAt jsonValid reg i s) := by
        rw [dequeuedAt, hq]
      rw [h1, h2, ih, List.cons_append]

theorem frozenDequeued_one (jsonValid : List UInt8 → Bool) (reg : PtrRegistry)
    (h : Heap) (q : List Ptr) : frozenDequeued jsonValid reg h 1 q = q.take 1 := by
  cases q <;> simp [frozenDequeued]

theorem dequeuedAt_frozen (jsonValid : List UInt8 → Bool) (reg : PtrRegistry)
    (h : Heap) (i : Ptr)
    (hrun : ∀ n dd rest, (frozenNext jsonValid reg h)^[n] [i] = dd :: rest →
      isLeafAt jsonValid reg h dd = true →
      (∃ m, dd ∈ frozenDequeued jsonValid reg h m
        ((frozenNext jsonValid reg h)^[n + 1] [i])) →
      Unaffected jsonValid reg h i dd) (n : Nat) :
    dequeuedAt jsonValid reg i n (initStateAt h i) =
      frozenDequeued jsonValid reg h n [i] := by
  induction n with
  | zero => rfl
  | succ n ih =>
    rw [dequeuedAt_succ_last, frozenDequeued_add, frozenDequeued_one, ih,
      (iterate_ProcessStepAt_frozen jsonValid reg h i hrun n).1]

/-- In a state whose worklist is the pointer 1 alone, read as a "picky" document
with the provenance of the root, one iteration under `againRegistry` leaves the
worklist and the memory as they are. -/
theorem againRegistry_step (s : PtrState) (hq : s.docsToUnpack = [1])
    (hd : s.heap 1 = mkDoc "picky" "root") :
    (ProcessStepAt demoJsonValid againRegistry 0 s).docsToUnpack = [1] ∧
      (ProcessStepAt demoJsonValid againRegistry 0 s).heap 1 = mkDoc "picky" "root" := by
  have hp : processDocumentAt demoJsonValid againRegistry s.heap 1 = .ok [1] := by
    rw [processDocumentAt_congr _ _ s.heap (fun _ => mkDoc "picky" "root") 1 hd]
    rfl
  have hc : childrenAt demoJsonValid againRegistry s.heap 1 = [1] := by
    simp [childrenAt, hp]
  have hl : isLeafAt demoJsonValid againRegistry s.heap 1 = false := by
    simp [isLeafAt, hp]
  rw [ProcessStepAt_cons _ _ _ _ _ _ hq, hc, hl]
  exact ⟨rfl, hd⟩

theorem againRegistry_never_returns (fuel : Nat) :
    ProcessAt demoJsonValid againRegistry dupHeap 0 fuel = none := by
  have key : ∀ n, ((ProcessStepAt demoJsonValid againRegistry 0)^[n + 2]
        (initStateAt dupHeap 0)).docsToUnpack = [1] ∧
      ((ProcessStepAt demoJsonValid againRegistry 0)^[n + 2]
        (initStateAt dupHeap 0)).heap 1 = mkDoc "picky" "root" := by
    intro n
    induction n with
    | zero => exact ⟨by decide, by decide⟩
    | succ n ih =>
      rw [show n + 1 + 2 = (n + 2) + 1 from rfl, Function.iterate_succ_apply']
      exact againRegistry_step _ ih.1 ih.2
  rw [ProcessAt_eq_none_iff]
  rcases Nat.lt_or_ge fuel 2 with hlt | hge
  · interval_cases fuel <;> decide
  · obtain ⟨n, rfl⟩ : ∃ n, fuel = n + 2 := ⟨fuel - 2, by omega⟩
    rw [(key n).1]
    simp

/-- C17, as stated, fails on objects.  In both examples the root unpacks to the
same pointer twice and the expansion tree has three nodes.  With `dupRegistry`
the loop is still running after three iterations and ends after four.  With
`againRegistry` the document, read again after its provenance was overwritten,
unpacks to itself, and the loop never ends. -/
theorem C17_counterexample :
    Acc (IsChildAt demoJsonValid dupRegistry dupHeap) 0 ∧
    nodesAt demoJsonValid dupRegistry dupHeap 0 2 = [0, 1, 1] ∧
    ProcessAt demoJsonValid dupRegistry dupHeap 0 3 = none ∧
    (ProcessAt demoJsonValid dupRegistry dupHeap 0 4).map (fun r => r.1) =
      some ([1], none) ∧
    Acc (IsChildAt demoJsonValid againRegistry dupHeap) 0 ∧
    nodesAt demoJsonValid againRegistry dupHeap 0 2 = [0, 1, 1] ∧
    (∀ fuel, ProcessAt demoJsonValid againRegistry dupHeap 0 fuel = none) ∧
    ¬ (∀ (jsonValid : List UInt8 → Bool) (reg : PtrRegistry) (h : Heap) (i : Ptr),
        Acc (IsChildAt jsonValid reg h) i →
        ∃ fuel r, ProcessAt jsonValid reg h i fuel = some r) := by
  have hacc : Acc (IsChildAt demoJsonValid againRegistry dupHeap) 0 :=
    acc_of_iterate_expandAt_nil demoJsonValid againRegistry dupHeap 2 0 (by decide)
  refine ⟨acc_of_iterate_expandAt_nil demoJsonValid dupRegistry dupHeap 2 0 (by decide),
    by decide, ?_, by decide, hacc, by decide, againRegistry_never_returns, ?_⟩
  · rw [ProcessAt_eq_none_iff]
    decide
  · intro hall
    obtain ⟨fuel, r, hr⟩ := hall demoJsonValid againRegistry dupHeap 0 hacc
    rw [againRegistry_never_returns] at hr
    cases hr

/-- C17 (amended): `Process` terminates when the expansion tree of the root is
finite and every terminal document that occurs at more than one node of the
tree gets the same result from `processDocument` after its provenance is
overwritten.  Then some generation `K` is empty, and with `N` the number of
nodes of the tree (the total length of the generations below `K`) the loop is
still running after fewer than `N` iterations, has ended after `N`, and the
documents it dequeued are exactly the nodes of the tree, level by level, each
node once. -/
theorem C17_terminates_on_finite_tree (jsonValid : List UInt8 → Bool) (reg : PtrRegistry)
    (h : Heap) (i : Ptr) (hacc : Acc (IsChildAt jsonValid reg h) i)
    (hst : ∀ K, ∀ p ∈ nodesAt jsonValid reg h i K, isLeafAt jsonValid reg h p = true →
      2 ≤ (nodesAt jsonValid reg h i K).count p → Unaffected jsonValid reg h i p) :
    ∃ K, generationAt jsonValid reg h i K = [] ∧
      (∀ fuel, fuel < (nodesAt jsonValid reg h i K).length →
        ProcessAt jsonValid reg h i fuel = none) ∧
      (∀ fuel, (nodesAt jsonValid reg h i K).length ≤ fuel →
        ∃ res hf, ProcessAt jsonValid reg h i fuel = some ((res, none), hf)) ∧
      (∀ fuel, (nodesAt jsonValid reg h i K).length ≤ fuel →
        dequeuedAt jsonValid reg i fuel (initStateAt h i) = nodesAt jsonValid reg h i K) := by
  obtain ⟨K, hK⟩ := exists_generation_nil_of_acc jsonValid reg h i hacc
  rw [← generationAt_eq_iterate] at hK
  have hrun := unaffected_of_count jsonValid reg h i K hK (hst K)
  refine ⟨K, hK, ?_, ?_, ?_⟩
  · intro fuel hfuel
    rw [ProcessAt_eq_none_iff, (iterate_ProcessStepAt_frozen jsonValid reg h i hrun fuel).1]
    exact frozen_ne_nil_of_dequeued_length jsonValid reg h _ [i]
      (by rw [frozenDequeued_levels]) fuel hfuel
  · intro fuel hfuel
    obtain ⟨hf, hrunf, _⟩ :=
      ProcessAt_level_order jsonValid reg h i K hK (hst K) fuel hfuel
    exact ⟨_, hf, hrunf⟩
  · intro fuel hfuel
    obtain ⟨t, ht, ht0⟩ := frozenDequeued_prefix jsonValid reg h i K hK fuel
    rw [ht0 hfuel, List.append_nil] at ht
    rw [dequeuedAt_frozen jsonValid reg h i hrun fuel, ht]

/-- When no registered processor looks at the provenance, no outcome is affected
by the provenance overwrite. -/
theorem Unaffected_of_blind (jsonValid : List UInt8 → Bool) (reg : PtrRegistry)
    (hblind : ∀ (t : DocumentType) (pr : PtrProcessor), reg t = some pr →
      ∀ (q : Ptr) (d : Document) (s : SourceInformation),
        pr.ValidateSchema q { d with SourceInformation := s } = pr.ValidateSchema q d ∧
        pr.ValidateTrustInformation q { d with SourceInformation := s } =
          pr.ValidateTrustInformation q d ∧
        pr.Unpack q { d with SourceInformation := s } = pr.Unpack q d)
    (h : Heap) (i p : Ptr) : Unaffected jsonValid reg h i p := by
  unfold Unaffected
  simp only [processDocumentAt, validateDocumentAt, unpackDocumentAt, overwrite_self]
  have hfmt : validateFormat jsonValid (emit (h i) (h p)) = validateFormat jsonValid (h p) :=
    rfl
  have hty : (emit (h i) (h p)).Type_ = (h p).Type_ := rfl
  rw [hfmt, hty]
  cases hr : reg (h p).Type_ with
  | none => rfl
  | some pr =>
    obtain ⟨h1, h2, h3⟩ := hblind _ pr hr p (h p) (h i).SourceInformation
    have e : emit (h i) (h p) =
        { h p with SourceInformation := (h i).SourceInformation } := rfl
    simp only [e, h1, h2, h3]

theorem treePtrRegistry_blind (t : DocumentType) (pr : PtrProcessor)
    (hr : treePtrRegistry t = some pr) (q : Ptr) (d : Document) (s : SourceInformation) :
    pr.ValidateSchema q { d with SourceInformation := s } = pr.ValidateSchema q d ∧
    pr.ValidateTrustInformation q { d with SourceInformation := s } =
      pr.ValidateTrustInformation q d ∧
    pr.Unpack q { d with SourceInformation := s } = pr.Unpack q d := by
  unfold treePtrRegistry at hr
  split_ifs at hr <;> (cases hr; exact ⟨rfl, rfl, rfl⟩)

/-- The example tree is finite and its processors do not look at the provenance:
the loop runs for exactly five iterations and dequeues the five nodes level by
level. -/
theorem C17_witness :
    Acc (IsChildAt demoJsonValid treePtrRegistry treeHeap) 0 ∧
    (∃ K, generationAt demoJsonValid treePtrRegistry treeHeap 0 K = [] ∧
      (∀ fuel, fuel < (nodesAt demoJsonValid treePtrRegistry treeHeap 0 K).length →
        ProcessAt demoJsonValid treePtrRegistry treeHeap 0 fuel = none) ∧
      (∀ fuel, (nodesAt demoJsonValid treePtrRegistry treeHeap 0 K).length ≤ fuel →
        ∃ res hf, ProcessAt demoJsonValid treePtrRegistry treeHeap 0 fuel =
          some ((res, none), hf)) ∧
      (∀ fuel, (nodesAt demoJsonValid treePtrRegistry treeHeap 0 K).length ≤ fuel →
        dequeuedAt demoJsonValid treePtrRegistry 0 fuel (initStateAt treeHeap 0) =
          nodesAt demoJsonValid treePtrRegistry treeHeap 0 K)) ∧
    nodesAt demoJsonValid treePtrRegistry treeHeap 0 3 = [0, 1, 2, 3, 4] ∧
    dequeuedAt demoJsonValid treePtrRegistry 0 5 (initStateAt treeHeap 0) = [0, 1, 2, 3, 4] ∧
    (ProcessAt demoJsonValid treePtrRegistry treeHeap 0 5).map (fun r => r.1) =
      some ([2, 3, 4], none) :=
  have hacc : Acc (IsChildAt demoJsonValid treePtrRegistry treeHeap) 0 :=
    acc_of_iterate_expandAt_nil demoJsonValid treePtrRegistry treeHeap 3 0 (by decide)
  ⟨hacc,
    C17_terminates_on_finite_tree demoJsonValid treePtrRegistry treeHeap 0 hacc
      (fun _ p _ _ _ =>
        Unaffected_of_blind demoJsonValid treePtrRegistry treePtrRegistry_blind treeHeap 0 p),
    by decide, by decide, by decide⟩

/-! ## What the engine writes -/

theorem finalDocs_subset_dequeuedAt (jsonValid : List UInt8 → Bool) (reg : PtrRegistry)
    (i : Ptr) :
    ∀ (n : Nat) (s : PtrState), ∀ p ∈ ((ProcessStepAt jsonValid reg i)^[n] s).finalDocs,
      p ∈ s.finalDocs ∨ p ∈ dequeuedAt jsonValid reg i n s := by
  intro n
  induction n with
  | zero => intro s p hp; exact Or.inl hp
  | succ n ih =>
    intro s p hp
    rw [Function.iterate_succ_apply] at hp
    cases hq : s.docsToUnpack with
    | nil =>
      rw [ProcessStepAt_nil _ _ _ _ hq, iterate_ProcessStepAt_nil _ _ _ _ hq] at hp
      exact Or.inl hp
    | cons dd rest =>
      have hd : dequeuedAt jsonValid reg i (n + 1) s =
          dd :: dequeuedAt jsonValid reg i n (ProcessStepAt jsonValid reg i s) := by
        rw [dequeuedAt, hq]
      rw [hd]
      rcases ih _ p hp with h1 | h1
      · rw [ProcessStepAt_cons _ _ _ _ _ _ hq] at h1
        rcases List.mem_append.mp h1 with h2 | h2
        · exact Or.inl h2
        · by_cases hl : isLeafAt jsonValid reg s.heap dd = true
          · simp only [hl, if_true, List.mem_singleton] at h2
            exact Or.inr (by simp [h2])
          · simp [hl] at h2
      · exact Or.inr (List.mem_cons_of_mem _ h1)

/-- Every dequeued pointer was in the worklist at the start or was returned as a
child for a pointer dequeued at an earlier iteration of the same run. -/
theorem dequeuedAt_origin (jsonValid : List UInt8 → Bool) (reg : PtrRegistry) (i : Ptr) :
    ∀ (n : Nat) (s : PtrState), ∀ p ∈ dequeuedAt jsonValid reg i n s,
      p ∈ s.docsToUnpack ∨
        ∃ m, m < n ∧ ∃ parent rest,
          ((ProcessStepAt jsonValid reg i)^[m] s).docsToUnpack = parent :: rest ∧
          p ∈ childrenAt jsonValid reg ((ProcessStepAt jsonValid reg i)^[m] s).heap parent := by
  intro n
  induction n with
  | zero => intro s p hp; simp [dequeuedAt] at hp
  | succ n ih =>
    intro s p hp
    cases hq : s.docsToUnpack with
    | nil => simp [dequeuedAt, hq] at hp
    | cons dd rest =>
      have hd : dequeuedAt jsonValid reg i (n + 1) s =
          dd :: dequeuedAt jsonValid reg i n (ProcessStepAt jsonValid reg i s) := by
        rw [dequeuedAt, hq]
      rw [hd] at hp
      rcases List.mem_cons.mp hp with rfl | hp
      · exact Or.inl (List.mem_cons_self _ _)
      · rcases ih _ p hp with h1 | ⟨m, hm, parent, rest', h2, h3⟩
        · rw [ProcessStepAt_cons _ _ _ _ _ _ hq] at h1
          rcases List.mem_append.mp h1 with h1 | h1
          · exact Or.inl (List.mem_cons_of_mem _ h1)
          · exact Or.inr ⟨0, Nat.succ_pos _, dd, rest, hq, h1⟩
        · refine Or.inr ⟨m + 1, by omega, parent, rest', ?_, ?_⟩
          · rw [Function.iterate_succ_apply]; exact h2
          · rw [Function.iterate_succ_apply]; exact h3

/-- C18, as stated, fails on objects.  Under `dupRegistry` the document at pointer
1 is emitted at the second iteration, which overwrites its provenance in place;
the same object is dequeued again at the third iteration and expanded into a
child.  It is a document that is expanded into children, and after the call
it is not as it was before. -/
theorem C18_counterexample :
    ((ProcessStepAt demoJsonValid dupRegistry 0)^[2] (initStateAt dupHeap 0)).docsToUnpack
      = [1] ∧
    childrenAt demoJsonValid dupRegistry
      ((ProcessStepAt demoJsonValid dupRegistry 0)^[2] (initStateAt dupHeap 0)).heap 1
      = [2] ∧
    dupHeap 1 = mkDoc "picky" "child" ∧
    (ProcessAt demoJsonValid dupRegistry dupHeap 0 4).map (fun r => (r.1, r.2 1)) =
      some (([1], none), mkDoc "picky" "root") ∧
    ¬ (∀ (jsonValid : List UInt8 → Bool) (reg : PtrRegistry) (h : Heap) (i : Ptr)
        (fuel : Nat) (res : List Ptr) (err : Option Error) (hf : Heap),
        ProcessAt jsonValid reg h i fuel = some ((res, err), hf) →
        ∀ (n : Nat) (dd : Ptr) (rest : List Ptr),
          ((ProcessStepAt jsonValid reg i)^[n] (initStateAt h i)).docsToUnpack = dd :: rest →
          isLeafAt jsonValid reg
            ((ProcessStepAt jsonValid reg i)^[n] (initStateAt h i)).heap dd = false →
          hf dd = h dd) := by
  have hmap : (ProcessAt demoJsonValid dupRegistry dupHeap 0 4).map (fun r => (r.1, r.2 1)) =
      some (([1], none), mkDoc "picky" "root") := by decide
  refine ⟨by decide, by decide, rfl, hmap, ?_⟩
  intro hall
  cases hr : ProcessAt demoJsonValid dupRegistry dupHeap 0 4 with
  | none => rw [hr] at hmap; cases hmap
  | some r =>
    obtain ⟨⟨res, err⟩, hf⟩ := r
    have h1 := hall demoJsonValid dupRegistry dupHeap 0 4 res err hf hr 2 1 []
      (by decide) (by decide)
    rw [hr] at hmap
    simp only [Option.map_some', Option.some.injEq, Prod.mk.injEq] at hmap
    rw [hmap.2] at h1
    exact absurd h1 (by decide)

/-- C18 (amended): the engine writes nothing but the `SourceInformation` of the
documents it emits.  At every point of a call, and after it, every document has
the `Format`, `Type` and `Blob` it had before the call.  Every document in the
result was dequeued, is the root or a child returned for a dequeued document,
and after the call is the document of before the call with `SourceInformation`
replaced by that of the root.  Every document that is not in the result, in
particular one that was only expanded or discarded, is after the call as it
was before; and the iteration that expands or discards a document writes to no
document. -/
theorem C18_only_provenance_written (jsonValid : List UInt8 → Bool) (reg : PtrRegistry)
    (h : Heap) (i : Ptr) (fuel : Nat) (res : List Ptr) (err : Option Error) (hf : Heap)
    (hrun : ProcessAt jsonValid reg h i fuel = some ((res, err), hf)) :
    (∀ (n : Nat) (p : Ptr),
      (((ProcessStepAt jsonValid reg i)^[n] (initStateAt h i)).heap p).Format = (h p).Format ∧
      (((ProcessStepAt jsonValid reg i)^[n] (initStateAt h i)).heap p).Type_ = (h p).Type_ ∧
      (((ProcessStepAt jsonValid reg i)^[n] (initStateAt h i)).heap p).Blob = (h p).Blob) ∧
    (∀ p, (hf p).Format = (h p).Format ∧ (hf p).Type_ = (h p).Type_ ∧
      (hf p).Blob = (h p).Blob) ∧
    (∀ p ∈ res, hf p = { h p with SourceInformation := (h i).SourceInformation } ∧
      p ∈ dequeuedAt jsonValid reg i fuel (initStateAt h i) ∧
      (p = i ∨ ∃ m, m < fuel ∧ ∃ parent rest,
        ((ProcessStepAt jsonValid reg i)^[m] (initStateAt h i)).docsToUnpack = parent :: rest ∧
        p ∈ childrenAt jsonValid reg
          ((ProcessStepAt jsonValid reg i)^[m] (initStateAt h i)).heap parent)) ∧
    (∀ p, p ∉ res → hf p = h p) ∧
    (∀ (s : PtrState) (dd : Ptr) (rest : List Ptr), s.docsToUnpack = dd :: rest →
      isLeafAt jsonValid reg s.heap dd = false →
      (ProcessStepAt jsonValid reg i s).heap = s.heap ∧
      (ProcessStepAt jsonValid reg i s).finalDocs = s.finalDocs) := by
  obtain ⟨_, hres, _, hheap⟩ := (ProcessAt_eq_some_iff _ _ _ _ _ _ _ _).mp hrun
  have hfields : ∀ (n : Nat) (p : Ptr),
      (((ProcessStepAt jsonValid reg i)^[n] (initStateAt h i)).heap p).Format = (h p).Format ∧
      (((ProcessStepAt jsonValid reg i)^[n] (initStateAt h i)).heap p).Type_ = (h p).Type_ ∧
      (((ProcessStepAt jsonValid reg i)^[n] (initStateAt h i)).heap p).Blob = (h p).Blob := by
    intro n p
    have hJ := OnlyEmittedWritten_iterate jsonValid reg h i n
    by_cases hp : p ∈ ((ProcessStepAt jsonValid reg i)^[n] (initStateAt h i)).finalDocs
    · rw [(hJ p).1 hp, overwrite_self]
      exact ⟨rfl, rfl, rfl⟩
    · rw [(hJ p).2 hp]
      exact ⟨rfl, rfl, rfl⟩
  have hJ := OnlyEmittedWritten_iterate jsonValid reg h i fuel
  refine ⟨hfields, ?_, ?_, ?_, ?_⟩
  · intro p
    rw [hheap]
    exact hfields fuel p
  · intro p hp
    rw [hres] at hp
    have hdq : p ∈ dequeuedAt jsonValid reg i fuel (initStateAt h i) := by
      rcases finalDocs_subset_dequeuedAt jsonValid reg i fuel _ p hp with h1 | h1
      · simp [initStateAt] at h1
      · exact h1
    refine ⟨?_, hdq, ?_⟩
    · rw [hheap, (hJ p).1 hp, overwrite_self]
      rfl
    · rcases dequeuedAt_origin jsonValid reg i fuel _ p hdq with h1 | h1
      · exact Or.inl (by simpa [initStateAt] using h1)
      · exact Or.inr h1
  · intro p hp
    rw [hres] at hp
    rw [hheap]
    exact (hJ p).2 hp
  · intro s dd rest hq hl
    rw [ProcessStepAt_cons _ _ _ _ _ _ hq]
    simp [hl]

/-- On the example tree the call returns B, A1 and A2; in the memory after the
call every document has its former `Format`, `Type` and `Blob`, the two expanded
documents are as they were before, and the three returned ones carry the
provenance of the root. -/
theorem C18_witness :
    ProcessAt demoJsonValid treePtrRegistry treeHeap 0 5 =
      some (([2, 3, 4], none),
        ((ProcessStepAt demoJsonValid treePtrRegistry 0)^[5] (initStateAt treeHeap 0)).heap) ∧
    (∀ p,
      (((ProcessStepAt demoJsonValid treePtrRegistry 0)^[5]
        (initStateAt treeHeap 0)).heap p).Format = (treeHeap p).Format ∧
      (((ProcessStepAt demoJsonValid treePtrRegistry 0)^[5]
        (initStateAt treeHeap 0)).heap p).Type_ = (treeHeap p).Type_ ∧
      (((ProcessStepAt demoJsonValid treePtrRegistry 0)^[5]
        (initStateAt treeHeap 0)).heap p).Blob = (treeHeap p).Blob) ∧
    (∀ p, p ∉ [2, 3, 4] →
      ((ProcessStepAt demoJsonValid treePtrRegistry 0)^[5] (initStateAt treeHeap 0)).heap p =
        treeHeap p) ∧
    [0, 1, 2, 3, 4].map
        ((ProcessStepAt demoJsonValid treePtrRegistry 0)^[5] (initStateAt treeHeap 0)).heap =
      [mkDoc "root" "origin", mkDoc "A" "a", mkDoc "B" "origin", mkDoc "A1" "origin",
        mkDoc "A2" "origin"] :=
  have hrun : ProcessAt demoJsonValid treePtrRegistry treeHeap 0 5 =
      some (([2, 3, 4], none),
        ((ProcessStepAt demoJsonValid treePtrRegistry 0)^[5]
          (initStateAt treeHeap 0)).heap) :=
    (ProcessAt_eq_some_iff _ _ _ _ _ _ _ _).mpr ⟨by decide, by decide, rfl, rfl⟩
  ⟨hrun,
    (C18_only_provenance_written demoJsonValid treePtrRegistry treeHeap 0 5 [2, 3, 4] none
      _ hrun).2.1,
    (C18_only_provenance_written demoJsonValid treePtrRegistry treeHeap 0 5 [2, 3, 4] none
      _ hrun).2.2.2.1,
    by decide⟩

end Processor
